import Mathlib

/-!
# Verification development for the `audio` package

Part I embeds `repeat.go` (the `Repeater` fan-out): signal buffers, the buffer
pool, capacity-one Go channels, and the `SinkFunc` / `FlushFunc` / `SourceFunc`
closures as steps of an interleaving transition system.

Part II models the `Track` streaming mixer, whose implementation is exercised by
`track_test.go` and `audio_test.go`.
-/

namespace Audio

/-! ## Signal buffers (`pipelined.dev/signal`) -/

/-- One sample. The code only moves `float64` samples around and never computes
with them, so any type with a zero (silence) serves. -/
abbrev Sample := Int

/-- One frame: one sample per channel. -/
abbrev Frame := List Sample

/-- A `signal.Floating` buffer: a channel count and `Length()` frames. -/
structure Floating where
  channels : Nat
  frames : List Frame
deriving DecidableEq, Repr

/-- Number of frames held, `Length()`. -/
def Floating.Length (f : Floating) : Nat := f.frames.length

/-- The library routine `signal.FloatingAsFloating(s, d)`: writes the first
`min(s.Length(), d.Length())` frames of `s` over the start of `d` and returns
the number of frames written. The copy is in place and leaves the length of `d`
as it is: `SinkFunc` drops the result and goes on with `out`, and `SourceFunc`
reports the result as `read`. Buffers of different channel counts make the
library abort (`none`). -/
def FloatingAsFloating (s d : Floating) : Option (Floating × Nat) :=
  if s.channels = d.channels then
    some ({ d with frames := s.frames.take (min s.Length d.Length)
                      ++ d.frames.drop (min s.Length d.Length) },
          min s.Length d.Length)
  else none

/-- Conversion `int32(x)`: two's complement wrap-around to 32 bits. -/
def int32 (x : Int) : Int := (x + 2 ^ 31) % 2 ^ 32 - 2 ^ 31

/-- Result of `atomic.AddInt32(&x, d)`: the new value, wrapped to 32 bits. -/
def AddInt32 (x d : Int) : Int := int32 (x + d)

/-! ## State of a `Repeater` -/

/-- The envelope `message`. `buffer` is the handle of a pooled buffer. The field
`seq` is a history variable: the index of the `SinkFunc` call that made it. -/
structure message where
  buffer : Nat
  sources : Int
  seq : Nat
deriving DecidableEq, Repr

/-- One completed `SourceFunc` read, kept as history: the envelope read, the
length `cap` of the caller's buffer, the returned frame count and the first
`read` frames of the caller's buffer after the call. -/
structure ReadRec where
  seq : Nat
  buffer : Nat
  cap : Nat
  read : Nat
  frames : List Frame
deriving DecidableEq, Repr

/-- Control point of the `SourceFunc` closure of one output. -/
inductive Pc where
  | idle
  | received (m : message) (b : Floating)
deriving DecidableEq, Repr

/-- One output: the channel `make(chan message, 1)` created by `Source` (a slot
of capacity one and the closed flag) together with the closure reading it.
`bufferSize` is the buffer size the allocator of the output was run with: its
pool is `GetPoolAllocator(r.channels, bufferSize, bufferSize)`. `log`, `eofs`,
`regAt` and `closedAt` are history variables. -/
structure Output where
  slot : Option message
  closed : Bool
  pc : Pc
  log : List ReadRec
  eofs : Nat
  regAt : Nat
  closedAt : Nat
  bufferSize : Nat
deriving DecidableEq, Repr

/-- Control point of the sink side: outside `SinkFunc`, or inside its loop with
the outputs of `range r.sources` still to be served. -/
inductive SinkPc where
  | idle
  | loop (inp : Floating) (rest : List Nat)
deriving DecidableEq, Repr

/-- History of one `SinkFunc` call: the chunk and `len(r.sources)` at the call. -/
structure Call where
  inp : Floating
  n : Nat
deriving DecidableEq, Repr

/-- The `Repeater`, the channels and closures it created, and the buffer pool.
`sources` lists channel handles; `heap` holds pooled buffers by handle, `free`
is the content of the pool. `calls`, `acquired` and `freed` are history. -/
structure Repeater where
  bufferSize : Nat
  channels : Nat
  sources : List Nat
  outs : Nat → Output
  nouts : Nat
  heap : Nat → Floating
  nbufs : Nat
  free : List Nat
  sink : SinkPc
  calls : List Call
  acquired : List (Nat × Nat)
  freed : List (Nat × Nat)

/-- Why a step has no successor state. -/
inductive Stuck where
  | disabled
  | blocked
  | panicked
deriving DecidableEq, Repr

/-- The Go `error` values of this file. -/
inductive Error where
  | EOF
deriving DecidableEq, Repr

/-- Pointwise update of a table. -/
def upd {α : Type} (f : Nat → α) (i : Nat) (v : α) : Nat → α :=
  fun k => if k = i then v else f k

/-- An output nobody created yet. -/
def Output.fresh (regAt bufferSize : Nat) : Output :=
  { slot := none, closed := false, pc := .idle, log := [], eofs := 0,
    regAt := regAt, closedAt := 0, bufferSize := bufferSize }

/-- A newly allocated pooled buffer. The pool of `SinkFunc` is
`GetPoolAllocator(props.Channels, bufferSize, bufferSize)`: its buffers hold
`bufferSize` frames, zero when new. -/
def zeroBuffer (channels bufferSize : Nat) : Floating :=
  { channels := channels
    frames := List.replicate bufferSize (List.replicate channels 0) }

/-- The repeater after the allocator returned by `Sink()` has run with the
given channel count and buffer size: no output, an empty pool. -/
def Sink (channels bufferSize : Nat) : Repeater :=
  { bufferSize := bufferSize, channels := channels, sources := []
    outs := fun _ => Output.fresh 0 0, nouts := 0
    heap := fun _ => zeroBuffer channels bufferSize, nbufs := 0, free := []
    sink := .idle, calls := [], acquired := [], freed := [] }

/-! ## Operations -/

/-- The method `Repeater.Source()`: makes a channel of capacity one and appends
it to `r.sources`. The allocator it returns is run with `bufferSize`, once the
input side is configured, and builds the closure `SourceFunc` of the output. -/
def Source (r : Repeater) (bufferSize : Nat) : Repeater :=
  { r with
    sources := r.sources ++ [r.nouts]
    outs := upd r.outs r.nouts (Output.fresh r.calls.length bufferSize)
    nouts := r.nouts + 1 }

/-- The call `p.GetFloat64()`: the pool hands out the buffer `pick` when it holds
it, and allocates a new one otherwise. -/
def GetFloat64 (r : Repeater) (pick : Option Nat) : Nat × Repeater :=
  match pick with
  | some b =>
    if b ∈ r.free then (b, { r with free := r.free.erase b })
    else (r.nbufs, { r with nbufs := r.nbufs + 1 })
  | none => (r.nbufs, { r with nbufs := r.nbufs + 1 })

/-- A buffer with every sample set to zero. -/
def Floating.zeroed (f : Floating) : Floating :=
  { f with frames := List.replicate f.Length (List.replicate f.channels 0) }

/-- The buffer `b` is zeroed and put into the pool. -/
def pooled (r : Repeater) (b seq : Nat) : Repeater :=
  { r with
    heap := upd r.heap b (r.heap b).zeroed
    free := b :: r.free
    freed := r.freed ++ [(b, seq)] }

/-- The call `message.buffer.Free(p)` in the closure of output `j`, where `p` is
the pool of the output. The library zeroes the buffer and puts it into `p`, and
aborts when the capacity of the buffer is not the capacity of `p`. The buffer
comes from the pool of `SinkFunc`, so the call succeeds exactly when the output
runs with the buffer size of the sink, and `p` is then that same pool. -/
def Free (r : Repeater) (j b seq : Nat) : Except Stuck Repeater :=
  if (r.outs j).bufferSize = r.bufferSize then .ok (pooled r b seq)
  else .error .panicked

/-- Entry of `SinkFunc(in)`: the range expression `r.sources` is evaluated. -/
def sinkCall (r : Repeater) (inp : Floating) : Repeater :=
  { r with
    sink := .loop inp r.sources
    calls := r.calls ++ [{ inp := inp, n := r.sources.length }] }

/-- The send `source <- message{sources: int32(len(r.sources)), buffer: out}` on
channel `c`, once the chunk has been copied into the pooled buffer `b` (whose
content is then `out`); the loop goes on with `rest`. -/
def send (r : Repeater) (c b : Nat) (out inp : Floating) (rest : List Nat) : Repeater :=
  { r with
    heap := upd r.heap b out
    outs := upd r.outs c
      { r.outs c with
        slot := some { buffer := b, sources := int32 r.sources.length
                       seq := r.calls.length - 1 } }
    sink := .loop inp rest
    acquired := r.acquired ++ [(b, r.calls.length - 1)] }

/-- One iteration of the loop of `SinkFunc`: acquire a buffer, copy the chunk
into it, send the envelope. The send blocks while the slot is taken, and
sending on a closed channel aborts. A blocked iteration has no effect yet: the
buffer it holds is known to the sink alone. -/
def sinkIter (r : Repeater) (pick : Option Nat) : Except Stuck Repeater :=
  match r.sink with
  | .loop inp (c :: rest) =>
    match GetFloat64 r pick with
    | (b, r1) =>
      match FloatingAsFloating inp (r1.heap b) with
      | none => .error .panicked
      | some (out, _) =>
        if (r1.outs c).closed then .error .panicked
        else if (r1.outs c).slot.isSome then .error .blocked
        else .ok (send r1 c b out inp rest)
  | _ => .error .disabled

/-- End of the loop of `SinkFunc`: `return nil`. -/
def sinkReturn (r : Repeater) : Except Stuck Repeater :=
  match r.sink with
  | .loop _ [] => .ok { r with sink := .idle }
  | _ => .error .disabled

/-- The closure `FlushFunc`: closes every channel of `r.sources` (closing a
closed channel aborts) and sets `r.sources = nil`. -/
def FlushFunc (r : Repeater) : Except Stuck Repeater :=
  if r.sources.Nodup ∧ ∀ c ∈ r.sources, (r.outs c).closed = false then
    .ok { r with
          outs := fun c =>
            if c ∈ r.sources then
              { r.outs c with closed := true, closedAt := r.calls.length }
            else r.outs c
          sources := [] }
  else .error .panicked

/-- First statement of `SourceFunc(b)` of output `j`: `message, ok = <-source`.
With `!ok` the call returns `(0, io.EOF)` at once. -/
def recv (r : Repeater) (j : Nat) (b : Floating) : Except Stuck Repeater :=
  match (r.outs j).pc with
  | .idle =>
    match (r.outs j).slot with
    | some m =>
      .ok { r with outs := upd r.outs j { r.outs j with slot := none, pc := .received m b } }
    | none =>
      if (r.outs j).closed then
        .ok { r with outs := upd r.outs j { r.outs j with eofs := (r.outs j).eofs + 1 } }
      else .error .blocked
  | _ => .error .disabled

/-- The closure of output `j` is done with its envelope: the read is logged. -/
def logRead (r : Repeater) (j : Nat) (x : ReadRec) : Repeater :=
  { r with
    outs := upd r.outs j { r.outs j with pc := .idle, log := (r.outs j).log ++ [x] } }

/-- Rest of `SourceFunc` of output `j` after a successful receive: copy out,
decrement the envelope's counter, free the buffer when it reached zero. Returns
the state and `read`. -/
def finish (r : Repeater) (j : Nat) : Except Stuck (Repeater × Nat) :=
  match (r.outs j).pc with
  | .received m b =>
    match FloatingAsFloating (r.heap m.buffer) b with
    | none => .error .panicked
    | some (b1, read) =>
      if AddInt32 m.sources (-1) = 0 then
        match Free (logRead r j ⟨m.seq, m.buffer, b.Length, read, b1.frames.take read⟩)
            j m.buffer m.seq with
        | .ok r1 => .ok (r1, read)
        | .error e => .error e
      else
        .ok (logRead r j ⟨m.seq, m.buffer, b.Length, read, b1.frames.take read⟩, read)
  | _ => .error .disabled

/-! ## Interleavings -/

/-- The atomic steps the sink goroutine, the registration of outputs and the
reading goroutines can take. -/
inductive Action where
  | source (bufferSize : Nat)
  | sinkCall (inp : Floating)
  | sinkIter (pick : Option Nat)
  | sinkReturn
  | flush
  | recv (j : Nat) (b : Floating)
  | finish (j : Nat)
deriving DecidableEq, Repr

/-- One step. The sink side is one goroutine, so `FlushFunc` and a new call of
`SinkFunc` start only after the last call of `SinkFunc` has returned; outputs
are registered by `Source()` before the run or through `AddOutput`, whose
mutation runs between two calls of the sink. The readers step at any time. -/
def step (r : Repeater) : Action → Except Stuck Repeater
  | .source bufferSize =>
    match r.sink with
    | .idle => .ok (Source r bufferSize)
    | _ => .error .disabled
  | .sinkCall inp =>
    match r.sink with
    | .idle => .ok (sinkCall r inp)
    | _ => .error .disabled
  | .sinkIter pick => sinkIter r pick
  | .sinkReturn => sinkReturn r
  | .flush =>
    match r.sink with
    | .idle => FlushFunc r
    | _ => .error .disabled
  | .recv j b => recv r j b
  | .finish j =>
    match finish r j with
    | .ok (r1, _) => .ok r1
    | .error e => .error e

/-- Run a schedule. -/
def run (r : Repeater) : List Action → Except Stuck Repeater
  | [] => .ok r
  | a :: as =>
    match step r a with
    | .ok r1 => run r1 as
    | .error e => .error e

/-- States the repeater can be in after its input side was configured. -/
inductive Reachable (channels bufferSize : Nat) : Repeater → Prop where
  | init : Reachable channels bufferSize (Sink channels bufferSize)
  | step {r r1 : Repeater} (a : Action) :
      Reachable channels bufferSize r → step r a = .ok r1 →
      Reachable channels bufferSize r1

/-! ## Whole calls, run without preemption -/

/-- How a call ended. -/
inductive Outcome where
  | returned (err : Option Error)
  | panicked
  | blocked
deriving DecidableEq, Repr

/-- The loop of `SinkFunc`, run until it returns, aborts or blocks on a full
queue; `picks` are the pool's choices. The fuel bounds the number of iterations:
one more than the number of outputs is enough. -/
def sinkLoop (r : Repeater) : Nat → List (Option Nat) → Outcome × Repeater
  | 0, _ => (.blocked, r)
  | fuel + 1, picks =>
    match r.sink with
    | .loop _ [] =>
      match sinkReturn r with
      | .ok r1 => (.returned none, r1)
      | .error _ => (.panicked, r)
    | _ =>
      match sinkIter r picks.head?.join with
      | .ok r1 => sinkLoop r1 fuel picks.tail
      | .error .blocked => (.blocked, r)
      | .error _ => (.panicked, r)

/-- A whole call `SinkFunc(in)`. -/
def SinkFunc (r : Repeater) (inp : Floating) (picks : List (Option Nat)) : Outcome × Repeater :=
  sinkLoop (sinkCall r inp) (r.sources.length + 1) picks

/-- A whole call `SourceFunc(b)` of output `j`: the state after it and the
returned `(read, err)`. -/
def SourceFunc (r : Repeater) (j : Nat) (b : Floating) :
    Except Stuck (Repeater × Nat × Option Error) :=
  match recv r j b with
  | .error e => .error e
  | .ok r1 =>
    match (r1.outs j).pc with
    | .idle => .ok (r1, 0, some .EOF)
    | .received _ _ =>
      match finish r1 j with
      | .ok (r2, read) => .ok (r2, read, none)
      | .error e => .error e

/-- Frames output `j` has read so far, concatenated. -/
def received (r : Repeater) (j : Nat) : List Frame :=
  ((r.outs j).log.map (fun x => x.frames)).flatten

/-- Chunks passed to `SinkFunc` so far, concatenated. -/
def published (r : Repeater) : List Frame :=
  (r.calls.map (fun c => c.inp.frames)).flatten

/-! ## Holders of envelopes and the invariant -/

/-- The envelope held by a holder: `inl c` is the slot of channel `c`, `inr j`
the variable `message` of the closure of output `j` while it copies out. -/
def live (r : Repeater) : Nat ⊕ Nat → Option message
  | .inl c => (r.outs c).slot
  | .inr j =>
    match (r.outs j).pc with
    | .received m _ => some m
    | .idle => none

/-- The buffer holds the chunk as `FloatingAsFloating` left it there. -/
def Copied (inp buf : Floating) : Prop :=
  buf.frames.take inp.Length = inp.frames.take buf.Length

/-- Number of `SinkFunc` calls whose envelope has been sent to output `j`. -/
def upTo (r : Repeater) (j : Nat) : Nat :=
  if j ∈ r.sources then
    match r.sink with
    | .idle => r.calls.length
    | .loop _ rest => if j ∈ rest then r.calls.length - 1 else r.calls.length
  else (r.outs j).closedAt

/-- Call indices of the envelopes output `j` has read, is copying out, and has
waiting in its queue, in this order. -/
def seqs (r : Repeater) (j : Nat) : List Nat :=
  (r.outs j).log.map (fun x => x.seq)
    ++ ((live r (.inr j)).toList.map (fun m => m.seq)
    ++ (live r (.inl j)).toList.map (fun m => m.seq))

/-- What holds in every reachable state. -/
structure Inv (r : Repeater) : Prop where
  free_nodup : r.free.Nodup
  free_lt : ∀ b ∈ r.free, b < r.nbufs
  heap_shape : ∀ b, (r.heap b).channels = r.channels ∧ (r.heap b).Length = r.bufferSize
  live_ok : ∀ h m, live r h = some m →
    m.buffer < r.nbufs ∧ m.buffer ∉ r.free ∧
    ∃ c, r.calls[m.seq]? = some c ∧ m.sources = int32 c.n ∧ Copied c.inp (r.heap m.buffer)
  live_inj : ∀ h h1 m m1, live r h = some m → live r h1 = some m1 →
    m.buffer = m1.buffer → h = h1
  src_nodup : r.sources.Nodup
  src_lt : ∀ c ∈ r.sources, c < r.nouts ∧ (r.outs c).closed = false
  src_len : r.sources.length ≤ r.nouts
  calls_n : ∀ c ∈ r.calls, c.n ≤ r.nouts
  closed_out : ∀ c, c < r.nouts → c ∉ r.sources → (r.outs c).closed = true
  unreg : ∀ c, r.nouts ≤ c → r.outs c = Output.fresh 0 0
  loop_ok : ∀ inp rest, r.sink = .loop inp rest →
    rest.Sublist r.sources ∧ ∃ pre, r.calls = pre ++ [⟨inp, r.sources.length⟩]
  deliver : ∀ j, (r.outs j).regAt ≤ upTo r j ∧
    seqs r j = List.range' (r.outs j).regAt (upTo r j - (r.outs j).regAt)
  freed_ok : ∀ b k, (b, k) ∈ r.freed → ∃ c, r.calls[k]? = some c ∧ int32 c.n = 1
  log_ok : ∀ j x, x ∈ (r.outs j).log → ∃ c, r.calls[x.seq]? = some c ∧
    x.read = min r.bufferSize x.cap ∧ x.frames.length = x.read ∧
    x.frames.take c.inp.Length = c.inp.frames.take x.read
  eof_ok : ∀ j, 0 < (r.outs j).eofs →
    (r.outs j).closed = true ∧ (r.outs j).slot = none ∧ (r.outs j).pc = .idle

/-- Where the envelope of a holder was before output `j` received. -/
def beforeRecv (j : Nat) (hd : Nat ⊕ Nat) : Nat ⊕ Nat :=
  if hd = .inr j then .inl j else hd

/-- The state a schedule leads to; a schedule that gets stuck leaves the
repeater as configured. -/
def exec (ch bs : Nat) (as : List Action) : Repeater :=
  match run (Sink ch bs) as with
  | .ok r => r
  | .error _ => Sink ch bs

/-- Output `j` is at end of stream: its queue is closed and empty and no
`SourceFunc` call of it is under way. -/
def Drained (r : Repeater) (j : Nat) : Prop :=
  (r.outs j).closed = true ∧ (r.outs j).slot = none ∧ (r.outs j).pc = .idle

/-! ## Example schedules -/

/-- A two-frame mono buffer a reader passes to `SourceFunc`. -/
def readBuf : Floating := ⟨1, [[9], [9]]⟩

/-- A full chunk for buffer size 2. -/
def chunkA : Floating := ⟨1, [[1], [2]]⟩

/-- Another full chunk for buffer size 2. -/
def chunkB : Floating := ⟨1, [[3], [4]]⟩

/-- A chunk of one frame, as a source hands over at the end of its stream. -/
def shortChunk : Floating := ⟨1, [[5]]⟩

/-- A mono chunk presented to a repeater configured for two channels. -/
def monoChunk : Floating := ⟨1, [[5], [6]]⟩

/-- Two outputs, two full chunks, a flush; both outputs read until `io.EOF`
while the sink is at work. -/
def fullRun : List Action :=
  [.source 2, .source 2, .sinkCall chunkA, .sinkIter none, .sinkIter none, .sinkReturn,
   .recv 0 readBuf, .finish 0, .sinkCall chunkB, .sinkIter none, .recv 1 readBuf, .finish 1,
   .sinkIter none, .sinkReturn, .flush, .recv 0 readBuf, .finish 0, .recv 1 readBuf,
   .finish 1, .recv 0 readBuf, .recv 1 readBuf]

/-- One output, one short chunk, a flush; the output reads until `io.EOF`. -/
def shortRun : List Action :=
  [.source 2, .sinkCall shortChunk, .sinkIter none, .sinkReturn, .flush,
   .recv 0 readBuf, .finish 0, .recv 0 readBuf]

/-- Two outputs, a stream of three frames handed over as a full chunk and a
chunk of one frame, a flush; both outputs read until `io.EOF`. -/
def shortLastRun : List Action :=
  [.source 2, .source 2, .sinkCall chunkA, .sinkIter none, .sinkIter none, .sinkReturn,
   .recv 0 readBuf, .finish 0, .recv 1 readBuf, .finish 1,
   .sinkCall ⟨1, [[3]]⟩, .sinkIter none, .sinkIter none, .sinkReturn, .flush,
   .recv 0 readBuf, .finish 0, .recv 1 readBuf, .finish 1, .recv 0 readBuf, .recv 1 readBuf]

/-- Two outputs, one chunk, both outputs read it. -/
def twoReaders : List Action :=
  [.source 2, .source 2, .sinkCall chunkA, .sinkIter none, .sinkIter none, .sinkReturn,
   .recv 0 readBuf, .finish 0, .recv 1 readBuf, .finish 1]

/-- A chunk goes by before an output is registered; the output then gets two
chunks, reads one, and a third call is under way. -/
def lateOutput : List Action :=
  [.sinkCall chunkA, .sinkReturn, .source 2, .sinkCall chunkB, .sinkIter none, .sinkReturn,
   .recv 0 readBuf, .finish 0, .sinkCall chunkA, .sinkIter (some 0), .sinkReturn,
   .sinkCall chunkB]

/-- One output: a chunk is read and its buffer freed, the next chunk is queued
in the recycled buffer and the output has received it. -/
def recycled : List Action :=
  [.source 2, .sinkCall chunkA, .sinkIter none, .sinkReturn, .recv 0 readBuf, .finish 0,
   .sinkCall chunkB, .sinkIter (some 0), .sinkReturn, .recv 0 readBuf,
   .sinkCall chunkA, .sinkIter (some 0)]

/-- One output with a chunk in its queue when `FlushFunc` runs. -/
def flushedWithChunk : List Action :=
  [.source 2, .sinkCall chunkA, .sinkIter none, .sinkReturn, .flush]

/-! ## Part II: assets, clips and the track mixer

`track_test.go` and `audio_test.go` exercise `SignalAsset`, `Asset.Clip`,
`NewTrack`, `Track.AddClip` and the stream of a track; the files implementing
them are not among the sources, so this part follows the specification. -/

/-- Modelled from the spec: the `Asset` type (its file is not among the
sources): an append-only store of frames with a sample rate and a channel count. -/
structure Asset where
  sampleRate : Nat
  channels : Nat
  data : List Frame
deriving DecidableEq, Repr

/-- Modelled from the spec: `SignalAsset`, an asset holding the given frames. -/
def SignalAsset (sampleRate channels : Nat) (data : List Frame) : Asset :=
  { sampleRate := sampleRate, channels := channels, data := data }

/-- Modelled from the spec: the `Clip` type, a view `(start, length)` into an
asset that copies no sample. -/
structure Clip where
  asset : Asset
  start : Nat
  len : Nat
deriving DecidableEq, Repr

/-- Modelled from the spec: `Asset.Clip(start, len)`, the make-clip operation. -/
def Asset.Clip (a : Asset) (start len : Nat) : Clip :=
  { asset := a, start := start, len := len }

/-- Modelled from the spec: the effective length of a clip, resolved against the
asset at read time; a clip the asset has too few frames for is empty. -/
def Clip.effLen (c : Clip) : Nat :=
  if c.start + c.len ≤ c.asset.data.length then c.len else 0

/-- Modelled from the spec: a placement, a clip at a timeline position tagged
with its insertion sequence number. -/
structure Placement where
  position : Nat
  clip : Clip
  seq : Nat
deriving DecidableEq, Repr

/-- Modelled from the spec: the `Track` type: sample rate, channel count and the
placements in insertion order. -/
structure Track where
  sampleRate : Nat
  channels : Nat
  placements : List Placement
deriving DecidableEq, Repr

/-- Modelled from the spec: `NewTrack`, a track without placements. -/
def NewTrack (sampleRate channels : Nat) : Track :=
  { sampleRate := sampleRate, channels := channels, placements := [] }

/-- Modelled from the spec: `Track.AddClip(position, clip)`, which appends a
placement and never removes one. -/
def Track.AddClip (t : Track) (position : Nat) (clip : Clip) : Track :=
  { t with placements := t.placements ++ [⟨position, clip, t.placements.length⟩] }

/-- Modelled from the spec: the total length of a track, the maximum over all
placements of position plus effective clip length. -/
def Track.length (t : Track) : Nat :=
  t.placements.foldl (fun acc p => max acc (p.position + p.clip.effLen)) 0

/-- Modelled from the spec: a placement is active at frame `f` when
`position ≤ f < position + effective length`. -/
def Placement.active (p : Placement) (f : Nat) : Bool :=
  decide (p.position ≤ f) && decide (f < p.position + p.clip.effLen)

/-- Modelled from the spec: one step of the scan for the active placement with
the largest insertion sequence number. -/
def pickLater (f : Nat) (best : Option Placement) (p : Placement) : Option Placement :=
  if p.active f then
    match best with
    | none => some p
    | some q => if q.seq < p.seq then some p else some q
  else best

/-- Modelled from the spec: among the placements active at `f`, the one with the
largest insertion sequence number. -/
def Track.winner (t : Track) (f : Nat) : Option Placement :=
  t.placements.foldl (pickLater f) none

/-- Silence: numeric zero on every channel. -/
def silence (channels : Nat) : Frame := List.replicate channels 0

/-- Modelled from the spec: the mixed frame at index `f`: the sample of the
winning placement, silence when no placement is active. -/
def Track.frame (t : Track) (f : Nat) : Frame :=
  match t.winner f with
  | some p => (p.clip.asset.data[p.clip.start + (f - p.position)]?).getD (silence t.channels)
  | none => silence t.channels

/-- Modelled from the spec: the pull interface of a track, a read cursor. -/
structure TrackStream where
  track : Track
  cursor : Nat
deriving DecidableEq, Repr

/-- Modelled from the spec: the start-streaming operation `Track.Source`; the
stream starts at frame 0. -/
def Track.Source (t : Track) : TrackStream := { track := t, cursor := 0 }

/-- Modelled from the spec: one pull with chunk size `k`: the next chunk of at
most `k` mixed frames and the advanced stream, or `none` at end of stream. -/
def TrackStream.pull (s : TrackStream) (k : Nat) : Option (List Frame × TrackStream) :=
  if s.track.length ≤ s.cursor then none
  else
    some ((List.range (min k (s.track.length - s.cursor))).map
            (fun i => s.track.frame (s.cursor + i)),
          { s with cursor := s.cursor + min k (s.track.length - s.cursor) })

/-- Pull with chunk size `k` until end of stream, at most `fuel + 1` times: the
chunks received, and whether end of stream was reached. -/
def TrackStream.drain (s : TrackStream) (k : Nat) : Nat → List (List Frame) × Bool
  | 0 => ([], (s.pull k).isNone)
  | fuel + 1 =>
    match s.pull k with
    | none => ([], true)
    | some (chunk, s1) => (chunk :: (s1.drain k fuel).1, (s1.drain k fuel).2)

/-- The chunks a consumer with chunk size `k` gets from the track's stream. -/
def Track.chunks (t : Track) (k : Nat) : List (List Frame) × Bool :=
  t.Source.drain k t.length

/-- A track built by a sequence of `AddClip(position, clip)` calls. -/
def build (sampleRate channels : Nat) (adds : List (Nat × Clip)) : Track :=
  adds.foldl (fun t a => t.AddClip a.1 a.2) (NewTrack sampleRate channels)

/-- The most recently added placement that covers frame `f`, read off the list
of `AddClip` calls. -/
def covering (adds : List (Nat × Clip)) (f : Nat) : Option (Nat × Clip) :=
  adds.reverse.find? (fun a => decide (a.1 ≤ f) && decide (f < a.1 + a.2.len))

/-- The frame the mixing rule prescribes at `f` for a list of `AddClip` calls. -/
def mixed (channels : Nat) (adds : List (Nat × Clip)) (f : Nat) : Frame :=
  match covering adds f with
  | some a => (a.2.asset.data[a.2.start + (f - a.1)]?).getD (silence channels)
  | none => silence channels

/-- The length the mixing rule prescribes: the maximum of position plus clip
length. -/
def extent (adds : List (Nat × Clip)) : Nat :=
  (adds.map (fun a => a.1 + a.2.len)).foldr max 0

/-- Mono frames from sample values. -/
def mono (xs : List Sample) : List Frame := xs.map (fun x => [x])

/-- The asset `asset1` of `track_test.go`: samples 10 to 19. -/
def asset1 : Asset := SignalAsset 44100 1 (mono [10, 11, 12, 13, 14, 15, 16, 17, 18, 19])

/-- The asset `asset2` of `track_test.go`: samples 20 to 29. -/
def asset2 : Asset := SignalAsset 44100 1 (mono [20, 21, 22, 23, 24, 25, 26, 27, 28, 29])

/-- The samples a sink collects from a mono track with buffer size `k`. -/
def collect (adds : List (Nat × Clip)) (k : Nat) : List Sample :=
  ((build 44100 1 adds).chunks k).1.flatten.flatten

/-! ## The invariant holds in every reachable state -/

@[simp] theorem upd_same {α : Type} (f : Nat → α) (i : Nat) (v : α) : upd f i v i = v := by
  simp [upd]

theorem upd_other {α : Type} (f : Nat → α) {i k : Nat} (v : α) (h : k ≠ i) :
    upd f i v k = f k := by
  simp [upd, h]

theorem Inv.init (ch bs : Nat) : Inv (Sink ch bs) := by
  constructor <;> simp [Sink, live, Output.fresh, upTo, seqs, zeroBuffer, Floating.Length]

theorem getElem?_append_some {α : Type} {l : List α} {k : Nat} {c : α} (x : List α)
    (h : l[k]? = some c) : (l ++ x)[k]? = some c := by
  have hk : k < l.length := by
    by_contra hn
    rw [List.getElem?_eq_none (by omega)] at h
    cases h
  rw [List.getElem?_append_left hk]
  exact h

theorem live_source {r : Repeater} {bs1 : Nat} {hd : Nat ⊕ Nat} {m : message}
    (hm : live (Source r bs1) hd = some m) : live r hd = some m := by
  cases hd with
  | inl c =>
    by_cases hc : c = r.nouts
    · subst hc; simp [live, Source, Output.fresh] at hm
    · simpa [live, Source, upd_other _ _ hc] using hm
  | inr c =>
    by_cases hc : c = r.nouts
    · subst hc; simp [live, Source, Output.fresh] at hm
    · simpa [live, Source, upd_other _ _ hc] using hm

theorem Inv.after_source {r : Repeater} (h : Inv r) (hs : r.sink = .idle) (bs1 : Nat) :
    Inv (Source r bs1) := by
  have hn : r.nouts ∉ r.sources := fun hm => by
    have := (h.src_lt _ hm).1
    omega
  constructor
  · exact h.free_nodup
  · exact h.free_lt
  · exact h.heap_shape
  · intro hd m hm
    exact h.live_ok hd m (live_source hm)
  · intro hd hd1 m m1 hm hm1
    exact h.live_inj hd hd1 m m1 (live_source hm) (live_source hm1)
  · show (r.sources ++ [r.nouts]).Nodup
    rw [List.nodup_append]
    refine ⟨h.src_nodup, List.nodup_singleton _, ?_⟩
    intro a ha hb
    simp at hb
    subst hb
    exact hn ha
  · intro c hc
    have hc' : c ∈ r.sources ++ [r.nouts] := hc
    rw [List.mem_append] at hc'
    rcases hc' with hc' | hc'
    · have := h.src_lt c hc'
      have hne : c ≠ r.nouts := by omega
      simp only [Source, upd_other _ _ hne]
      exact ⟨by omega, this.2⟩
    · simp at hc'
      subst hc'
      simp [Source, Output.fresh]
  · have := h.src_len
    simp [Source]
    omega
  · intro c hc
    have := h.calls_n c hc
    simp [Source]
    omega
  · intro c hc hns
    have hns' : c ∉ r.sources ++ [r.nouts] := hns
    simp at hns'
    have hlt : c < r.nouts := by
      have : c < r.nouts + 1 := hc
      omega
    simp only [Source, upd_other _ _ hns'.2]
    exact h.closed_out c hlt hns'.1
  · intro c hc
    have hc' : r.nouts + 1 ≤ c := hc
    have hne : c ≠ r.nouts := by omega
    simp only [Source, upd_other _ _ hne]
    exact h.unreg c (by omega)
  · intro inp rest hl
    simp [Source, hs] at hl
  · intro j
    by_cases hj : j = r.nouts
    · subst hj
      simp [upTo, seqs, live, Source, Output.fresh, hs]
    · have hd := h.deliver j
      have e1 : (Source r bs1).outs j = r.outs j := by simp [Source, upd_other _ _ hj]
      have e2 : upTo (Source r bs1) j = upTo r j := by
        simp [upTo, e1, hs]
        simp [Source, hs, hj]
      have e3 : seqs (Source r bs1) j = seqs r j := by
        simp [seqs, live, e1]
      rw [e1, e2, e3]
      exact hd
  · exact h.freed_ok
  · intro j x hx
    by_cases hj : j = r.nouts
    · subst hj
      simp [Source, Output.fresh] at hx
    · have e1 : (Source r bs1).outs j = r.outs j := by simp [Source, upd_other _ _ hj]
      rw [e1] at hx
      exact h.log_ok j x hx
  · intro j hx
    by_cases hj : j = r.nouts
    · subst hj
      simp [Source, Output.fresh] at hx
    · have e1 : (Source r bs1).outs j = r.outs j := by simp [Source, upd_other _ _ hj]
      rw [e1] at hx ⊢
      exact h.eof_ok j hx

theorem live_sinkCall (r : Repeater) (inp : Floating) : live (sinkCall r inp) = live r := by
  funext hd
  cases hd <;> rfl

theorem Inv.after_sinkCall {r : Repeater} (h : Inv r) (hs : r.sink = .idle) (inp : Floating) :
    Inv (sinkCall r inp) := by
  constructor
  · exact h.free_nodup
  · exact h.free_lt
  · exact h.heap_shape
  · intro hd m hm
    rw [live_sinkCall] at hm
    obtain ⟨h1, h2, c, h3, h4⟩ := h.live_ok hd m hm
    exact ⟨h1, h2, c, getElem?_append_some _ h3, h4⟩
  · intro hd hd1 m m1 hm hm1
    rw [live_sinkCall] at hm hm1
    exact h.live_inj hd hd1 m m1 hm hm1
  · exact h.src_nodup
  · exact h.src_lt
  · exact h.src_len
  · intro c hc
    have hc' : c ∈ r.calls ++ [⟨inp, r.sources.length⟩] := hc
    rw [List.mem_append] at hc'
    rcases hc' with hc' | hc'
    · exact h.calls_n c hc'
    · simp at hc'
      subst hc'
      exact h.src_len
  · exact h.closed_out
  · exact h.unreg
  · intro inp1 rest hl
    have hl' : SinkPc.loop inp r.sources = SinkPc.loop inp1 rest := hl
    injection hl' with e1 e2
    subst e1 e2
    exact ⟨List.Sublist.refl _, r.calls, rfl⟩
  · intro j
    have hd := h.deliver j
    have e2 : upTo (sinkCall r inp) j = upTo r j := by
      simp only [upTo, sinkCall, hs]
      by_cases hj : j ∈ r.sources <;> simp [hj]
    have e3 : seqs (sinkCall r inp) j = seqs r j := by
      simp [seqs, live_sinkCall]
      rfl
    rw [e2, e3]
    exact hd
  · intro b k hb
    obtain ⟨c, h1, h2⟩ := h.freed_ok b k hb
    exact ⟨c, getElem?_append_some _ h1, h2⟩
  · intro j x hx
    obtain ⟨c, h1, h2⟩ := h.log_ok j x hx
    exact ⟨c, getElem?_append_some _ h1, h2⟩
  · exact h.eof_ok

theorem Inv.after_sinkReturn {r r1 : Repeater} (h : Inv r) (hs : sinkReturn r = .ok r1) : Inv r1 := by
  unfold sinkReturn at hs
  split at hs
  · rename_i inp hl
    injection hs with hs
    subst hs
    have hlive : live { r with sink := SinkPc.idle } = live r := by
      funext hd
      cases hd <;> rfl
    constructor
    · exact h.free_nodup
    · exact h.free_lt
    · exact h.heap_shape
    · intro hd m hm
      rw [hlive] at hm
      exact h.live_ok hd m hm
    · intro hd hd1 m m1 hm hm1
      rw [hlive] at hm hm1
      exact h.live_inj hd hd1 m m1 hm hm1
    · exact h.src_nodup
    · exact h.src_lt
    · exact h.src_len
    · exact h.calls_n
    · exact h.closed_out
    · exact h.unreg
    · intro inp1 rest hl1
      simp at hl1
    · intro j
      have hd := h.deliver j
      have e2 : upTo { r with sink := SinkPc.idle } j = upTo r j := by
        simp [upTo, hl]
      have e3 : seqs { r with sink := SinkPc.idle } j = seqs r j := by
        simp [seqs, hlive]
      rw [e2, e3]
      exact hd
    · exact h.freed_ok
    · exact h.log_ok
    · exact h.eof_ok
  · cases hs

theorem Inv.after_flush {r r1 : Repeater} (h : Inv r) (hs : r.sink = .idle)
    (hf : FlushFunc r = .ok r1) : Inv r1 := by
  unfold FlushFunc at hf
  split at hf
  · injection hf with hf
    subst hf
    have hlive : ∀ hd, live { r with
          outs := fun c =>
            if c ∈ r.sources then
              { r.outs c with closed := true, closedAt := r.calls.length }
            else r.outs c
          sources := [] } hd = live r hd := by
      intro hd
      cases hd with
      | inl c => by_cases hc : c ∈ r.sources <;> simp [live, hc]
      | inr c => by_cases hc : c ∈ r.sources <;> simp [live, hc]
    constructor
    · exact h.free_nodup
    · exact h.free_lt
    · exact h.heap_shape
    · intro hd m hm
      rw [hlive] at hm
      exact h.live_ok hd m hm
    · intro hd hd1 m m1 hm hm1
      rw [hlive] at hm hm1
      exact h.live_inj hd hd1 m m1 hm hm1
    · exact List.nodup_nil
    · intro c hc
      cases hc
    · simp
    · exact h.calls_n
    · intro c hc _
      by_cases hm : c ∈ r.sources
      · simp [hm]
      · simp only [hm, if_false]
        exact h.closed_out c hc hm
    · intro c hc
      have hc' : r.nouts ≤ c := hc
      have hm : c ∉ r.sources := fun hm => by
        have := (h.src_lt c hm).1
        omega
      simp only [hm, if_false]
      exact h.unreg c hc
    · intro inp rest hl
      simp [hs] at hl
    · intro j
      have hd := h.deliver j
      simp only [seqs, hlive]
      simp only [seqs] at hd
      by_cases hm : j ∈ r.sources
      · simp only [upTo, hm, hs, if_true] at hd
        simpa [upTo, hm] using hd
      · simp only [upTo, hm, if_false] at hd
        simpa [upTo, hm] using hd
    · exact h.freed_ok
    · intro j x hx
      apply h.log_ok j x
      by_cases hm : j ∈ r.sources
      · simpa [hm] using hx
      · simpa [hm] using hx
    · intro j hx
      by_cases hm : j ∈ r.sources
      · have hx' : 0 < (r.outs j).eofs := by simpa [hm] using hx
        have := h.eof_ok j hx'
        simp [hm, this]
      · have hx' : 0 < (r.outs j).eofs := by simpa [hm] using hx
        have := h.eof_ok j hx'
        simp [hm, this]
  · cases hf

theorem Inv.after_recv {r r1 : Repeater} (h : Inv r) (j : Nat) (b : Floating)
    (hf : recv r j b = .ok r1) : Inv r1 := by
  unfold recv at hf
  split at hf
  · rename_i hpc
    split at hf
    · rename_i m hslot
      injection hf with hf
      subst hf
      have hlive : ∀ hd m1, live { r with
            outs := upd r.outs j { r.outs j with slot := none, pc := .received m b } } hd = some m1 →
          hd ≠ .inl j ∧ live r (beforeRecv j hd) = some m1 := by
        intro hd m1 hm
        cases hd with
        | inl c =>
          by_cases hc : c = j
          · subst hc; simp [live] at hm
          · simp only [live, upd_other _ _ hc] at hm
            simp [beforeRecv, live, hm, hc]
        | inr c =>
          by_cases hc : c = j
          · subst hc
            simp only [live, upd_same] at hm
            simp [beforeRecv, live, hslot, hm]
          · simp only [live, upd_other _ _ hc] at hm
            simp only [beforeRecv, live]
            simp [hc, hm]
      constructor
      · exact h.free_nodup
      · exact h.free_lt
      · exact h.heap_shape
      · intro hd m1 hm
        exact h.live_ok _ m1 (hlive hd m1 hm).2
      · intro hd hd1 m1 m2 hm hm1 hb
        have e := h.live_inj _ _ m1 m2 (hlive hd m1 hm).2 (hlive hd1 m2 hm1).2 hb
        have n1 := (hlive hd m1 hm).1
        have n2 := (hlive hd1 m2 hm1).1
        unfold beforeRecv at e
        split at e <;> split at e
        · simp_all
        · exact absurd e.symm n2
        · exact absurd e n1
        · exact e
      · exact h.src_nodup
      · intro c hc
        have := h.src_lt c hc
        by_cases hcj : c = j
        · subst hcj; simpa using this
        · simpa [upd_other _ _ hcj] using this
      · exact h.src_len
      · exact h.calls_n
      · intro c hc hn
        have := h.closed_out c hc hn
        by_cases hcj : c = j
        · subst hcj; simpa using this
        · simpa [upd_other _ _ hcj] using this
      · intro c hc
        have := h.unreg c hc
        by_cases hcj : c = j
        · subst hcj
          rw [this] at hslot
          simp [Output.fresh] at hslot
        · simpa [upd_other _ _ hcj] using this
      · exact h.loop_ok
      · intro k
        have hd := h.deliver k
        by_cases hk : k = j
        · subst hk
          simp only [upTo, seqs, live, hpc, hslot] at hd
          simpa [upTo, seqs, live] using hd
        · simp only [upTo, seqs, live] at hd
          simpa [upTo, seqs, live, upd_other _ _ hk] using hd
      · exact h.freed_ok
      · intro k x hx
        apply h.log_ok k x
        by_cases hk : k = j
        · subst hk; simpa using hx
        · simpa [upd_other _ _ hk] using hx
      · intro k hx
        by_cases hk : k = j
        · subst hk
          have hx' : 0 < (r.outs k).eofs := by simpa using hx
          have := h.eof_ok k hx'
          rw [this.2.1] at hslot
          cases hslot
        · have hx' : 0 < (r.outs k).eofs := by simpa [upd_other _ _ hk] using hx
          simpa [upd_other _ _ hk] using h.eof_ok k hx'
    · rename_i hslot
      split at hf
      · rename_i hclosed
        injection hf with hf
        subst hf
        have hlive : ∀ hd, live { r with
            outs := upd r.outs j { r.outs j with eofs := (r.outs j).eofs + 1 } } hd = live r hd := by
          intro hd
          cases hd with
          | inl c =>
            by_cases hc : c = j
            · subst hc; simp [live]
            · simp [live, upd_other _ _ hc]
          | inr c =>
            by_cases hc : c = j
            · subst hc; simp [live]
            · simp [live, upd_other _ _ hc]
        constructor
        · exact h.free_nodup
        · exact h.free_lt
        · exact h.heap_shape
        · intro hd m1 hm
          rw [hlive] at hm
          exact h.live_ok _ m1 hm
        · intro hd hd1 m1 m2 hm hm1 hb
          rw [hlive] at hm hm1
          exact h.live_inj _ _ m1 m2 hm hm1 hb
        · exact h.src_nodup
        · intro c hc
          have := h.src_lt c hc
          by_cases hcj : c = j
          · subst hcj; simpa using this
          · simpa [upd_other _ _ hcj] using this
        · exact h.src_len
        · exact h.calls_n
        · intro c hc hn
          have := h.closed_out c hc hn
          by_cases hcj : c = j
          · subst hcj; simpa using this
          · simpa [upd_other _ _ hcj] using this
        · intro c hc
          have := h.unreg c hc
          by_cases hcj : c = j
          · subst hcj
            rw [this] at hclosed
            simp [Output.fresh] at hclosed
          · simpa [upd_other _ _ hcj] using this
        · exact h.loop_ok
        · intro k
          have hd := h.deliver k
          simp only [seqs, hlive]
          simp only [seqs] at hd
          by_cases hk : k = j
          · subst hk
            simp only [upTo] at hd
            simpa [upTo] using hd
          · simp only [upTo] at hd
            simpa [upTo, upd_other _ _ hk] using hd
        · exact h.freed_ok
        · intro k x hx
          apply h.log_ok k x
          by_cases hk : k = j
          · subst hk; simpa using hx
          · simpa [upd_other _ _ hk] using hx
        · intro k hx
          by_cases hk : k = j
          · subst hk
            simp [hclosed, hslot, hpc]
          · have hx' : 0 < (r.outs k).eofs := by simpa [upd_other _ _ hk] using hx
            simpa [upd_other _ _ hk] using h.eof_ok k hx'
      · cases hf
  · cases hf

theorem FloatingAsFloating_some {s d d1 : Floating} {n : Nat}
    (h : FloatingAsFloating s d = some (d1, n)) :
    s.channels = d.channels ∧ n = min s.Length d.Length ∧ d1.channels = d.channels ∧
      d1.frames = s.frames.take n ++ d.frames.drop n ∧ d1.Length = d.Length := by
  unfold FloatingAsFloating at h
  split at h
  · rename_i hc
    injection h with h
    injection h with h1 h2
    subst h1 h2
    refine ⟨hc, rfl, rfl, rfl, ?_⟩
    simp only [Floating.Length, List.length_append, List.length_take, List.length_drop]
    omega
  · cases h

theorem int32_range (x : Int) : -2 ^ 31 ≤ int32 x ∧ int32 x < 2 ^ 31 := by
  unfold int32
  omega

theorem int32_of_small {x : Int} (h0 : 0 ≤ x) (h1 : x < 2 ^ 31) : int32 x = x := by
  unfold int32
  omega

theorem AddInt32_zero {x : Int} : AddInt32 (int32 x) (-1) = 0 ↔ int32 x = 1 := by
  have := int32_range x
  unfold AddInt32
  generalize int32 x = y at *
  unfold int32
  omega

theorem Inv.after_logRead {r : Repeater} (h : Inv r) {j : Nat} {m : message} {b b1 : Floating}
    {read : Nat} (hpc : (r.outs j).pc = .received m b)
    (hcp : FloatingAsFloating (r.heap m.buffer) b = some (b1, read)) :
    Inv (logRead r j ⟨m.seq, m.buffer, b.Length, read, b1.frames.take read⟩) ∧
    ∀ hd m1, live (logRead r j ⟨m.seq, m.buffer, b.Length, read, b1.frames.take read⟩) hd
      = some m1 → m1.buffer ≠ m.buffer := by
  have hm : live r (.inr j) = some m := by simp [live, hpc]
  have hlive : ∀ hd m1,
      live (logRead r j ⟨m.seq, m.buffer, b.Length, read, b1.frames.take read⟩) hd = some m1 →
      hd ≠ .inr j ∧ live r hd = some m1 := by
    intro hd m1 hm1
    cases hd with
    | inl c =>
      by_cases hc : c = j
      · subst hc
        simp only [live, logRead, upd_same] at hm1
        simp [live, hm1]
      · simp only [live, logRead, upd_other _ _ hc] at hm1
        simp [live, hm1]
    | inr c =>
      by_cases hc : c = j
      · subst hc
        simp [live, logRead] at hm1
      · simp only [live, logRead, upd_other _ _ hc] at hm1
        simp only [live]
        simp [hc, hm1]
  refine ⟨?_, ?_⟩
  · constructor
    · exact h.free_nodup
    · exact h.free_lt
    · exact h.heap_shape
    · intro hd m1 hm1
      exact h.live_ok _ m1 (hlive hd m1 hm1).2
    · intro hd hd1 m1 m2 hm1 hm2 hb
      exact h.live_inj _ _ m1 m2 (hlive hd m1 hm1).2 (hlive hd1 m2 hm2).2 hb
    · exact h.src_nodup
    · intro c hc
      have := h.src_lt c hc
      by_cases hcj : c = j
      · subst hcj; simpa [logRead] using this
      · simpa [logRead, upd_other _ _ hcj] using this
    · exact h.src_len
    · exact h.calls_n
    · intro c hc hn
      have := h.closed_out c hc hn
      by_cases hcj : c = j
      · subst hcj; simpa [logRead] using this
      · simpa [logRead, upd_other _ _ hcj] using this
    · intro c hc
      have := h.unreg c hc
      by_cases hcj : c = j
      · subst hcj
        rw [this] at hpc
        simp [Output.fresh] at hpc
      · simpa [logRead, upd_other _ _ hcj] using this
    · exact h.loop_ok
    · intro k
      have hd := h.deliver k
      by_cases hk : k = j
      · subst hk
        simp only [upTo, seqs, live, hpc] at hd
        simpa [upTo, seqs, live, logRead] using hd
      · simp only [upTo, seqs, live] at hd
        simpa [upTo, seqs, live, logRead, upd_other _ _ hk] using hd
    · exact h.freed_ok
    · intro k x hx
      by_cases hk : k = j
      · subst hk
        simp only [logRead, upd_same, List.mem_append, List.mem_singleton] at hx
        rcases hx with hx | hx
        · exact h.log_ok k x hx
        · subst hx
          obtain ⟨_, _, c, hc, _, hcopied⟩ := h.live_ok _ m hm
          obtain ⟨_, hread, _, hfr, _⟩ := FloatingAsFloating_some hcp
          have hlen := (h.heap_shape m.buffer).2
          refine ⟨c, hc, ?_, ?_, ?_⟩
          · show read = min r.bufferSize b.Length
            rw [hread, hlen]
          · show (b1.frames.take read).length = read
            rw [hfr]
            simp only [List.length_take, List.length_append, List.length_drop]
            simp only [Floating.Length] at hread hlen
            omega
          · show (b1.frames.take read).take c.inp.Length = c.inp.frames.take read
            have hle : read ≤ (r.heap m.buffer).frames.length := by
              simp only [Floating.Length] at hread
              omega
            have e1 : b1.frames.take read = (r.heap m.buffer).frames.take read := by
              rw [hfr, List.take_append_of_le_length (by simp; omega)]
              simp
            rw [e1, List.take_take, Nat.min_comm, ← List.take_take]
            unfold Copied at hcopied
            rw [hcopied, List.take_take]
            congr 1
            simp only [Floating.Length] at hread hlen ⊢
            omega
      · simp only [logRead, upd_other _ _ hk] at hx
        exact h.log_ok k x hx
    · intro k hx
      by_cases hk : k = j
      · subst hk
        have hx' : 0 < (r.outs k).eofs := by simpa [logRead] using hx
        have := h.eof_ok k hx'
        rw [this.2.2] at hpc
        cases hpc
      · have hx' : 0 < (r.outs k).eofs := by simpa [logRead, upd_other _ _ hk] using hx
        simpa [logRead, upd_other _ _ hk] using h.eof_ok k hx'
  · intro hd m1 hm1 hb
    have := h.live_inj _ _ m1 m (hlive hd m1 hm1).2 hm hb
    exact (hlive hd m1 hm1).1 this

theorem live_pooled (r : Repeater) (b k : Nat) : live (pooled r b k) = live r := by
  funext hd
  cases hd <;> rfl

theorem zeroed_shape (f : Floating) :
    f.zeroed.channels = f.channels ∧ f.zeroed.Length = f.Length := by
  simp [Floating.zeroed, Floating.Length]

theorem Inv.after_pooled {r : Repeater} (h : Inv r) {b k : Nat} (hb : b < r.nbufs)
    (hfree : b ∉ r.free) (hlive : ∀ hd m, live r hd = some m → m.buffer ≠ b)
    (hk : ∃ c, r.calls[k]? = some c ∧ int32 c.n = 1) : Inv (pooled r b k) := by
  constructor
  · exact List.nodup_cons.mpr ⟨hfree, h.free_nodup⟩
  · intro x hx
    have hx' : x ∈ b :: r.free := hx
    rcases List.mem_cons.mp hx' with hx' | hx'
    · subst hx'; exact hb
    · exact h.free_lt x hx'
  · intro x
    by_cases hx : x = b
    · subst hx
      have := h.heap_shape x
      simp only [pooled, upd_same]
      exact ⟨(zeroed_shape _).1.trans this.1, (zeroed_shape _).2.trans this.2⟩
    · simp only [pooled, upd_other _ _ hx]
      exact h.heap_shape x
  · intro hd m hm
    rw [live_pooled] at hm
    obtain ⟨h1, h2, c, h3, h4, h5⟩ := h.live_ok hd m hm
    refine ⟨h1, ?_, c, h3, h4, ?_⟩
    · intro hmem
      have hmem' : m.buffer ∈ b :: r.free := hmem
      rcases List.mem_cons.mp hmem' with hx | hx
      · exact hlive hd m hm hx
      · exact h2 hx
    · have hne := hlive hd m hm
      simp only [pooled, upd_other _ _ hne]
      exact h5
  · intro hd hd1 m m1 hm hm1
    rw [live_pooled] at hm hm1
    exact h.live_inj hd hd1 m m1 hm hm1
  · exact h.src_nodup
  · exact h.src_lt
  · exact h.src_len
  · exact h.calls_n
  · exact h.closed_out
  · exact h.unreg
  · exact h.loop_ok
  · intro j
    have hd := h.deliver j
    simp only [seqs, live_pooled]
    exact hd
  · intro x y hx
    have hx' : (x, y) ∈ r.freed ++ [(b, k)] := hx
    rcases List.mem_append.mp hx' with hx' | hx'
    · exact h.freed_ok x y hx'
    · simp only [List.mem_singleton, Prod.mk.injEq] at hx'
      obtain ⟨_, e2⟩ := hx'
      subst e2
      exact hk
  · exact h.log_ok
  · exact h.eof_ok

/-- The two ways a call of `finish` returns: the counter reached zero, the pool
of the output is the pool of the sink and the buffer was freed; or the counter
did not reach zero and the pool is left alone. -/
theorem finish_cases {r r1 : Repeater} {j read : Nat} (hf : finish r j = .ok (r1, read)) :
    ∃ m b b1, (r.outs j).pc = .received m b ∧
      FloatingAsFloating (r.heap m.buffer) b = some (b1, read) ∧
      ((AddInt32 m.sources (-1) = 0 ∧ (r.outs j).bufferSize = r.bufferSize ∧
          r1 = pooled (logRead r j ⟨m.seq, m.buffer, b.Length, read, b1.frames.take read⟩)
            m.buffer m.seq) ∨
        (AddInt32 m.sources (-1) ≠ 0 ∧
          r1 = logRead r j ⟨m.seq, m.buffer, b.Length, read, b1.frames.take read⟩)) := by
  unfold finish at hf
  split at hf
  · rename_i m b hpc
    split at hf
    · cases hf
    · rename_i b1 rd hcp
      split at hf
      · rename_i hz
        split at hf
        · rename_i r2 hfree
          simp only [Except.ok.injEq, Prod.mk.injEq] at hf
          obtain ⟨e1, e2⟩ := hf
          subst e1 e2
          unfold Free at hfree
          split at hfree
          · rename_i hbs
            injection hfree with hfree
            subst hfree
            exact ⟨m, b, b1, hpc, hcp, Or.inl ⟨hz, by simpa [logRead] using hbs, rfl⟩⟩
          · cases hfree
        · cases hf
      · rename_i hz
        simp only [Except.ok.injEq, Prod.mk.injEq] at hf
        obtain ⟨e1, e2⟩ := hf
        subst e1 e2
        exact ⟨m, b, b1, hpc, hcp, Or.inr ⟨hz, rfl⟩⟩
  · cases hf

theorem Inv.after_finish {r r1 : Repeater} (h : Inv r) {j read : Nat}
    (hf : finish r j = .ok (r1, read)) : Inv r1 := by
  obtain ⟨m, b, b1, hpc, hcp, hcase⟩ := finish_cases hf
  have hA := h.after_logRead hpc hcp
  have hm : live r (.inr j) = some m := by simp [live, hpc]
  obtain ⟨hlt, hnf, c, hc, hsrc, _⟩ := h.live_ok _ m hm
  rcases hcase with ⟨hz, _, e⟩ | ⟨_, e⟩
  · subst e
    refine hA.1.after_pooled hlt hnf hA.2 ⟨c, hc, ?_⟩
    rw [hsrc] at hz
    exact AddInt32_zero.mp hz
  · subst e
    exact hA.1

/-- The facts about the buffer the pool hands out. -/
theorem Inv.after_GetFloat64 {r r1 : Repeater} (h : Inv r) {pick : Option Nat} {b : Nat}
    (hg : GetFloat64 r pick = (b, r1)) :
    Inv r1 ∧ b < r1.nbufs ∧ b ∉ r1.free ∧ (∀ hd m, live r1 hd = some m → m.buffer ≠ b) ∧
      r1.sink = r.sink ∧ r1.outs = r.outs ∧ r1.sources = r.sources ∧ r1.calls = r.calls := by
  have key : ∀ fr nb, fr.Nodup → (∀ x ∈ fr, x ∈ r.free) → r.nbufs ≤ nb →
      (b ∈ r.free ∨ r.nbufs ≤ b) → b < nb → b ∉ fr →
      r1 = { r with free := fr, nbufs := nb } →
      Inv r1 ∧ b < r1.nbufs ∧ b ∉ r1.free ∧ (∀ hd m, live r1 hd = some m → m.buffer ≠ b) ∧
      r1.sink = r.sink ∧ r1.outs = r.outs ∧ r1.sources = r.sources ∧ r1.calls = r.calls := by
    intro fr nb hnd hsub hnb hb hlt hnot e
    subst e
    have hlive : live { r with free := fr, nbufs := nb } = live r := by
      funext hd
      cases hd <;> rfl
    refine ⟨?_, hlt, hnot, ?_, rfl, rfl, rfl, rfl⟩
    · constructor
      · exact hnd
      · intro x hx
        have := h.free_lt x (hsub x hx)
        show x < nb
        omega
      · exact h.heap_shape
      · intro hd m hm
        rw [hlive] at hm
        obtain ⟨h1, h2, h3⟩ := h.live_ok hd m hm
        refine ⟨?_, fun hx => h2 (hsub _ hx), h3⟩
        show m.buffer < nb
        omega
      · intro hd hd1 m m1 hm hm1
        rw [hlive] at hm hm1
        exact h.live_inj hd hd1 m m1 hm hm1
      · exact h.src_nodup
      · exact h.src_lt
      · exact h.src_len
      · exact h.calls_n
      · exact h.closed_out
      · exact h.unreg
      · exact h.loop_ok
      · intro j
        have hd := h.deliver j
        simp only [seqs, hlive]
        exact hd
      · exact h.freed_ok
      · exact h.log_ok
      · exact h.eof_ok
    · intro hd m hm e
      rw [hlive] at hm
      obtain ⟨h1, h2, _⟩ := h.live_ok hd m hm
      rcases hb with hb | hb
      · exact h2 (e ▸ hb)
      · omega
  have fresh : (r.nbufs, { r with nbufs := r.nbufs + 1 }) = (b, r1) →
      Inv r1 ∧ b < r1.nbufs ∧ b ∉ r1.free ∧ (∀ hd m, live r1 hd = some m → m.buffer ≠ b) ∧
      r1.sink = r.sink ∧ r1.outs = r.outs ∧ r1.sources = r.sources ∧ r1.calls = r.calls := by
    intro e
    injection e with e1 e2
    subst e1
    refine key r.free (r.nbufs + 1) h.free_nodup (fun x hx => hx) (by omega) (Or.inr (le_refl _))
      (by omega) ?_ e2.symm
    intro hx
    have := h.free_lt _ hx
    omega
  unfold GetFloat64 at hg
  split at hg
  · rename_i b0
    split at hg
    · rename_i hmem
      injection hg with e1 e2
      subst e1
      refine key (r.free.erase b0) r.nbufs (h.free_nodup.erase _)
        (fun x hx => List.mem_of_mem_erase hx) (le_refl _) (Or.inl hmem) (h.free_lt _ hmem) ?_
        e2.symm
      exact fun hx => (List.Nodup.mem_erase_iff h.free_nodup).mp hx |>.1 rfl
    · exact fresh hg
  · exact fresh hg

theorem Copied_of_copy {inp d out : Floating} {n : Nat}
    (h : FloatingAsFloating inp d = some (out, n)) : Copied inp out := by
  obtain ⟨_, hn, _, hfr, hlen⟩ := FloatingAsFloating_some h
  unfold Copied
  rw [hlen, hfr]
  simp only [Floating.Length] at hn ⊢
  by_cases hle : inp.frames.length ≤ d.frames.length
  · have e : n = inp.frames.length := by omega
    rw [e, List.take_of_length_le (le_refl _), List.take_left, List.take_of_length_le hle]
  · have e : n = d.frames.length := by omega
    rw [e, List.drop_of_length_le (le_refl _), List.append_nil]
    rw [List.take_take]
    congr 1
    omega

theorem Inv.after_send {r : Repeater} (h : Inv r) {c b n : Nat} {inp out : Floating}
    {rest : List Nat} (hs : r.sink = .loop inp (c :: rest)) (hb : b < r.nbufs)
    (hfree : b ∉ r.free) (hfresh : ∀ hd m, live r hd = some m → m.buffer ≠ b)
    (hcp : FloatingAsFloating inp (r.heap b) = some (out, n))
    (hclosed : (r.outs c).closed = false) (hslot : (r.outs c).slot = none) :
    Inv (send r c b out inp rest) := by
  obtain ⟨hsub, pre, hpre⟩ := h.loop_ok _ _ hs
  have hnd : (c :: rest).Nodup := h.src_nodup.sublist hsub
  have hcr : c ∉ rest := (List.nodup_cons.mp hnd).1
  have hcs : c ∈ r.sources := hsub.subset (List.mem_cons_self _ _)
  have hlast : r.calls[r.calls.length - 1]? = some ⟨inp, r.sources.length⟩ := by
    rw [hpre]
    simp
  have hlen : 1 ≤ r.calls.length := by
    rw [hpre]
    simp
  have hlive : ∀ hd m, live (send r c b out inp rest) hd = some m →
      (hd = .inl c ∧ m = ⟨b, int32 r.sources.length, r.calls.length - 1⟩) ∨
      (hd ≠ .inl c ∧ live r hd = some m) := by
    intro hd m hm
    cases hd with
    | inl k =>
      by_cases hk : k = c
      · subst hk
        simp only [live, send, upd_same, Option.some.injEq] at hm
        exact Or.inl ⟨rfl, hm.symm⟩
      · simp only [live, send, upd_other _ _ hk] at hm
        exact Or.inr ⟨by simp [hk], by simp [live, hm]⟩
    | inr k =>
      by_cases hk : k = c
      · subst hk
        simp only [live, send, upd_same] at hm
        exact Or.inr ⟨by simp, by simp only [live]; exact hm⟩
      · simp only [live, send, upd_other _ _ hk] at hm
        exact Or.inr ⟨by simp, by simp only [live]; exact hm⟩
  obtain ⟨_, _, hch, _, hlenb⟩ := FloatingAsFloating_some hcp
  constructor
  · exact h.free_nodup
  · exact h.free_lt
  · intro x
    by_cases hx : x = b
    · subst hx
      have := h.heap_shape x
      simp only [send, upd_same]
      exact ⟨hch.trans this.1, hlenb.trans this.2⟩
    · simp only [send, upd_other _ _ hx]
      exact h.heap_shape x
  · intro hd m hm
    rcases hlive hd m hm with ⟨_, e⟩ | ⟨_, hm'⟩
    · subst e
      refine ⟨hb, hfree, ⟨inp, r.sources.length⟩, hlast, rfl, ?_⟩
      simp only [send, upd_same]
      exact Copied_of_copy hcp
    · obtain ⟨h1, h2, c1, h3, h4, h5⟩ := h.live_ok hd m hm'
      refine ⟨h1, h2, c1, h3, h4, ?_⟩
      have hne := hfresh hd m hm'
      simp only [send, upd_other _ _ hne]
      exact h5
  · intro hd hd1 m m1 hm hm1 hbuf
    rcases hlive hd m hm with ⟨e1, e⟩ | ⟨_, hm'⟩
    · rcases hlive hd1 m1 hm1 with ⟨e2, _⟩ | ⟨_, hm1'⟩
      · rw [e1, e2]
      · subst e
        exact absurd hbuf.symm (hfresh hd1 m1 hm1')
    · rcases hlive hd1 m1 hm1 with ⟨_, e⟩ | ⟨_, hm1'⟩
      · subst e
        exact absurd hbuf (hfresh hd m hm')
      · exact h.live_inj hd hd1 m m1 hm' hm1' hbuf
  · exact h.src_nodup
  · intro k hk
    have := h.src_lt k hk
    by_cases hkc : k = c
    · subst hkc; simpa [send] using this
    · simpa [send, upd_other _ _ hkc] using this
  · exact h.src_len
  · exact h.calls_n
  · intro k hk hn
    have := h.closed_out k hk hn
    by_cases hkc : k = c
    · subst hkc; simpa [send] using this
    · simpa [send, upd_other _ _ hkc] using this
  · intro k hk
    have := h.unreg k hk
    have hkc : k ≠ c := by
      intro e
      subst e
      have := (h.src_lt k hcs).1
      have hk' : r.nouts ≤ k := hk
      omega
    simpa [send, upd_other _ _ hkc] using this
  · intro inp1 rest1 hl
    have hl' : SinkPc.loop inp rest = SinkPc.loop inp1 rest1 := hl
    injection hl' with e1 e2
    subst e1 e2
    exact ⟨(List.sublist_cons_self c rest).trans hsub, pre, hpre⟩
  · intro k
    have hd := h.deliver k
    by_cases hk : k = c
    · subst hk
      have hpc : live r (.inr k) = live (send r k b out inp rest) (.inr k) := by
        simp [live, send]
      simp only [upTo, seqs, hcs, hs, if_true, List.mem_cons, true_or] at hd
      rw [show live r (.inl k) = none from hslot] at hd
      simp only [upTo, seqs, ← hpc]
      simp only [send, upd_same, hcs, hcr, if_true, if_false]
      simp only [live, upd_same, Option.toList, List.map_nil, List.append_nil,
        List.map_cons] at hd ⊢
      refine ⟨by omega, ?_⟩
      have e : r.calls.length - (r.outs k).regAt
          = (r.calls.length - 1 - (r.outs k).regAt) + 1 := by omega
      rw [e, List.range'_concat, ← hd.2]
      simp only [List.append_assoc, Nat.one_mul]
      congr 2
      simp
      omega
    · have hmem : k ∈ c :: rest ↔ k ∈ rest := by simp [hk]
      simp only [upTo, seqs, live, hs] at hd
      simpa [upTo, seqs, live, send, upd_other _ _ hk, hmem] using hd
  · exact h.freed_ok
  · intro k x hx
    apply h.log_ok k x
    by_cases hkc : k = c
    · subst hkc; simpa [send] using hx
    · simpa [send, upd_other _ _ hkc] using hx
  · intro k hx
    by_cases hkc : k = c
    · subst hkc
      have hx' : 0 < (r.outs k).eofs := by simpa [send] using hx
      have := h.eof_ok k hx'
      rw [this.1] at hclosed
      cases hclosed
    · have hx' : 0 < (r.outs k).eofs := by simpa [send, upd_other _ _ hkc] using hx
      simpa [send, upd_other _ _ hkc] using h.eof_ok k hx'

theorem Inv.after_sinkIter {r r1 : Repeater} (h : Inv r) {pick : Option Nat}
    (hf : sinkIter r pick = .ok r1) : Inv r1 := by
  unfold sinkIter at hf
  split at hf
  · rename_i inp c rest hs
    split at hf
    rename_i b r0 hg
    obtain ⟨h0, hb, hfree, hfresh, e1, e2, _, _⟩ := h.after_GetFloat64 hg
    split at hf
    · cases hf
    · rename_i out n hcp
      split at hf
      · cases hf
      · rename_i hclosed
        split at hf
        · cases hf
        · rename_i hslot
          injection hf with hf
          subst hf
          refine h0.after_send (e1.trans hs) hb hfree hfresh hcp (by simpa using hclosed) ?_
          cases hsl : (r0.outs c).slot with
          | none => rfl
          | some m => simp [hsl] at hslot
  · cases hf

theorem Inv.after_step {r r1 : Repeater} (h : Inv r) {a : Action} (hf : step r a = .ok r1) :
    Inv r1 := by
  cases a with
  | source =>
    simp only [step] at hf
    split at hf
    · rename_i hs
      injection hf with hf
      subst hf
      exact h.after_source hs _
    · cases hf
  | sinkCall inp =>
    simp only [step] at hf
    split at hf
    · rename_i hs
      injection hf with hf
      subst hf
      exact h.after_sinkCall hs inp
    · cases hf
  | sinkIter pick => exact h.after_sinkIter hf
  | sinkReturn => exact h.after_sinkReturn hf
  | flush =>
    simp only [step] at hf
    split at hf
    · rename_i hs
      exact h.after_flush hs hf
    · cases hf
  | recv j b => exact h.after_recv j b hf
  | finish j =>
    simp only [step] at hf
    split at hf
    · rename_i r2 n hfin
      injection hf with hf
      subst hf
      exact h.after_finish hfin
    · cases hf

theorem Reachable.inv {ch bs : Nat} {r : Repeater} (h : Reachable ch bs r) : Inv r := by
  induction h with
  | init => exact Inv.init ch bs
  | step a _ hf ih => exact ih.after_step hf

theorem GetFloat64_config (r : Repeater) (pick : Option Nat) :
    (GetFloat64 r pick).2.channels = r.channels ∧
      (GetFloat64 r pick).2.bufferSize = r.bufferSize := by
  unfold GetFloat64
  split
  · split <;> exact ⟨rfl, rfl⟩
  · exact ⟨rfl, rfl⟩

theorem step_config {r r1 : Repeater} {a : Action} (hf : step r a = .ok r1) :
    r1.channels = r.channels ∧ r1.bufferSize = r.bufferSize := by
  cases a with
  | source =>
    simp only [step] at hf
    split at hf
    · injection hf with hf; subst hf; exact ⟨rfl, rfl⟩
    · cases hf
  | sinkCall inp =>
    simp only [step] at hf
    split at hf
    · injection hf with hf; subst hf; exact ⟨rfl, rfl⟩
    · cases hf
  | sinkIter pick =>
    replace hf : sinkIter r pick = .ok r1 := hf
    unfold sinkIter at hf
    split at hf
    · split at hf
      rename_i b r0 hg
      have := GetFloat64_config r pick
      rw [hg] at this
      split at hf
      · cases hf
      · split at hf
        · cases hf
        · split at hf
          · cases hf
          · injection hf with hf; subst hf; exact this
    · cases hf
  | sinkReturn =>
    simp only [step, sinkReturn] at hf
    split at hf
    · injection hf with hf; subst hf; exact ⟨rfl, rfl⟩
    · cases hf
  | flush =>
    simp only [step, FlushFunc] at hf
    split at hf
    · split at hf
      · injection hf with hf; subst hf; exact ⟨rfl, rfl⟩
      · cases hf
    · cases hf
  | recv j b =>
    simp only [step, recv] at hf
    split at hf
    · split at hf
      · injection hf with hf; subst hf; exact ⟨rfl, rfl⟩
      · split at hf
        · injection hf with hf; subst hf; exact ⟨rfl, rfl⟩
        · cases hf
    · cases hf
  | finish j =>
    simp only [step] at hf
    split at hf
    · rename_i r2 n hfin
      injection hf with hf
      subst hf
      obtain ⟨m, b, b1, _, _, hcase⟩ := finish_cases hfin
      rcases hcase with ⟨_, _, e⟩ | ⟨_, e⟩ <;> subst e <;> exact ⟨rfl, rfl⟩
    · cases hf

theorem Reachable.config {ch bs : Nat} {r : Repeater} (h : Reachable ch bs r) :
    r.channels = ch ∧ r.bufferSize = bs := by
  induction h with
  | init => exact ⟨rfl, rfl⟩
  | step a _ hf ih =>
    have := step_config hf
    exact ⟨this.1.trans ih.1, this.2.trans ih.2⟩

theorem Reachable.of_run {ch bs : Nat} {r r1 : Repeater} (h : Reachable ch bs r)
    (as : List Action) (hf : run r as = .ok r1) : Reachable ch bs r1 := by
  induction as generalizing r with
  | nil =>
    injection hf with hf
    subst hf
    exact h
  | cons a as ih =>
    simp only [run] at hf
    split at hf
    · rename_i r2 hs
      exact ih (Reachable.step a h hs) hf
    · cases hf

theorem Reachable.exec (ch bs : Nat) (as : List Action) : Reachable ch bs (exec ch bs as) := by
  unfold Audio.exec
  split
  · rename_i r hr
    exact Reachable.of_run Reachable.init as hr
  · exact Reachable.init

/-! ## Fan-out, delivery and reclamation -/

theorem log_frames_eq {r : Repeater} (h : Inv r) {j : Nat}
    (hshape : ∀ c ∈ r.calls, c.inp.Length = r.bufferSize)
    (hcap : ∀ x ∈ (r.outs j).log, r.bufferSize ≤ x.cap) :
    ∀ x ∈ (r.outs j).log, ∃ c, r.calls[x.seq]? = some c ∧ x.frames = c.inp.frames := by
  intro x hx
  obtain ⟨c, hc, hread, hlen, htake⟩ := h.log_ok j x hx
  refine ⟨c, hc, ?_⟩
  have hcm : c ∈ r.calls := List.getElem?_mem hc
  have hL := hshape c hcm
  have hcp := hcap x hx
  have hr : x.read = r.bufferSize := by omega
  rw [hL, hr, List.take_of_length_le (by omega)] at htake
  rw [htake, List.take_of_length_le]
  simp only [Floating.Length] at hL
  omega

theorem map_frames_of_seqs {calls : List Call} {log : List ReadRec}
    (hseq : log.map (fun x => x.seq) = List.range' 0 calls.length)
    (hfr : ∀ x ∈ log, ∃ c, calls[x.seq]? = some c ∧ x.frames = c.inp.frames) :
    log.map (fun x => x.frames) = calls.map (fun c => c.inp.frames) := by
  have hlen : log.length = calls.length := by
    have := congrArg List.length hseq
    simpa using this
  apply List.ext_getElem
  · simpa using hlen
  · intro i h1 h2
    simp only [List.length_map] at h1 h2
    simp only [List.getElem_map]
    have hi : (log.map (fun x => x.seq))[i]? = (List.range' 0 calls.length)[i]? := by rw [hseq]
    have hs : log[i].seq = i := by
      rw [List.getElem?_map, List.getElem?_eq_getElem h1,
        List.getElem?_eq_getElem (by simpa using h2)] at hi
      simpa using hi
    obtain ⟨c, hc, hf⟩ := hfr log[i] (List.getElem_mem _)
    rw [hs, List.getElem?_eq_getElem h2] at hc
    injection hc with hc
    rw [hf, hc]

/-- Fan-out of full chunks: in every reachable state, for an output that was
registered before the first `SinkFunc` call, whose queue was closed by a
`FlushFunc` that followed all `SinkFunc` calls, and that has read until `io.EOF`,
if every chunk passed to `SinkFunc` held exactly `bufferSize` frames and every
buffer the output read into held at least `bufferSize` frames, then the frames
the output read, concatenated, are the input chunks, concatenated. -/
theorem fanout_equivalence {ch bs : Nat} {r : Repeater} (h : Reachable ch bs r) (j : Nat)
    (hshape : ∀ c ∈ r.calls, c.inp.Length = bs)
    (hcap : ∀ x ∈ (r.outs j).log, bs ≤ x.cap)
    (hreg : (r.outs j).regAt = 0)
    (hlast : (r.outs j).closedAt = r.calls.length)
    (heof : 0 < (r.outs j).eofs) :
    received r j = published r := by
  have hi := h.inv
  have hbs := h.config.2
  obtain ⟨hclosed, hslot, hpc⟩ := hi.eof_ok j heof
  have hns : j ∉ r.sources := fun hm => by
    have := (hi.src_lt j hm).2
    rw [hclosed] at this
    cases this
  have hd := (hi.deliver j).2
  simp only [seqs, live, hpc, hslot, upTo, hns, if_false, hreg, hlast, Option.toList,
    List.map_nil, List.append_nil, Nat.sub_zero] at hd
  unfold received published
  rw [map_frames_of_seqs hd
    (log_frames_eq hi (by rw [hbs]; exact hshape) (by rw [hbs]; exact hcap))]

/-- C2. Per-output delivery without backfill: in every reachable state, the
call indices of the envelopes an output has read, is copying out and has waiting
in its queue are, in this order, the consecutive indices of the `SinkFunc` calls
made since the output was registered whose envelope was sent to it; between
`SinkFunc` calls these are all calls made since its registration. No index is
below the registration point, and what was read or waits in the queue agrees
with the chunk of that call. -/
theorem delivery_without_backfill {ch bs : Nat} {r : Repeater} (h : Reachable ch bs r)
    (j : Nat) :
    seqs r j = List.range' (r.outs j).regAt (upTo r j - (r.outs j).regAt) ∧
    (r.sink = .idle → j ∈ r.sources →
      seqs r j = List.range' (r.outs j).regAt (r.calls.length - (r.outs j).regAt)) ∧
    (∀ k ∈ seqs r j, (r.outs j).regAt ≤ k) ∧
    (∀ x ∈ (r.outs j).log, ∃ c, r.calls[x.seq]? = some c ∧
      x.frames.take c.inp.Length = c.inp.frames.take x.read) ∧
    (∀ m, (r.outs j).slot = some m →
      ∃ c, r.calls[m.seq]? = some c ∧ Copied c.inp (r.heap m.buffer)) := by
  have hi := h.inv
  have hd := (hi.deliver j).2
  refine ⟨hd, ?_, ?_, ?_, ?_⟩
  · intro hs hj
    rw [hd]
    simp [upTo, hj, hs]
  · intro k hk
    rw [hd, List.mem_range'_1] at hk
    exact hk.1
  · intro x hx
    obtain ⟨c, hc, _, _, ht⟩ := hi.log_ok j x hx
    exact ⟨c, hc, ht⟩
  · intro m hm
    obtain ⟨_, _, c, hc, _, hcp⟩ := hi.live_ok (.inl j) m hm
    exact ⟨c, hc, hcp⟩

theorem GetFloat64_fresh {r : Repeater} (h : Inv r) (pick : Option Nat) :
    ∀ hd m, live r hd = some m → m.buffer ≠ (GetFloat64 r pick).1 := by
  intro hd m hm
  rcases hg : GetFloat64 r pick with ⟨b, r0⟩
  obtain ⟨_, _, _, hfresh, _, houts, _⟩ := h.after_GetFloat64 hg
  apply hfresh hd m
  cases hd with
  | inl c => simp only [live, houts]; exact hm
  | inr c => simp only [live, houts]; exact hm

/-- C4. Reclamation safety: in every reachable state, a buffer that is in the
pool is referenced neither by an envelope waiting in a queue nor by an envelope
an output has received and not finished copying out; and the buffer the pool
hands to the next publish is referenced by no such envelope. -/
theorem reclamation_safety {ch bs : Nat} {r : Repeater} (h : Reachable ch bs r) :
    (∀ c m, (r.outs c).slot = some m → m.buffer ∉ r.free) ∧
    (∀ j m b, (r.outs j).pc = .received m b → m.buffer ∉ r.free) ∧
    (∀ pick c m, (r.outs c).slot = some m → m.buffer ≠ (GetFloat64 r pick).1) ∧
    (∀ pick j m b, (r.outs j).pc = .received m b → m.buffer ≠ (GetFloat64 r pick).1) := by
  have hi := h.inv
  refine ⟨?_, ?_, ?_, ?_⟩
  · intro c m hm
    exact (hi.live_ok (.inl c) m hm).2.1
  · intro j m b hm
    exact (hi.live_ok (.inr j) m (by simp [live, hm])).2.1
  · intro pick c m hm
    exact GetFloat64_fresh hi pick (.inl c) m hm
  · intro pick j m b hm
    exact GetFloat64_fresh hi pick (.inr j) m (by simp [live, hm])

/-- Fan-out of full chunks at work: two outputs, two full chunks, both outputs
read everything that was published. -/
theorem fanout_equivalence_witness :
    received (exec 1 2 fullRun) 1 = [[1], [2], [3], [4]] ∧
      published (exec 1 2 fullRun) = [[1], [2], [3], [4]] :=
  ⟨(fanout_equivalence (Reachable.exec 1 2 fullRun) 1 (by decide) (by decide) (by decide)
      (by decide) (by decide)).trans (by decide), by decide⟩

/-- C1, evaluated at the failing input, with buffer size 2. Two outputs are
registered before the first publish; a stream of three frames is handed to
`SinkFunc` as a full chunk and a chunk of one frame, and `FlushFunc` follows;
each output reads until `io.EOF`. Each output has then read four frames, the
stream and a frame of padding. With one output and a single chunk of one frame
the output reads two frames. -/
theorem fanout_pads_short_chunk :
    (((exec 1 2 shortLastRun).outs 0).regAt = 0 ∧ ((exec 1 2 shortLastRun).outs 1).regAt = 0 ∧
     ((exec 1 2 shortLastRun).outs 0).closedAt = (exec 1 2 shortLastRun).calls.length ∧
     ((exec 1 2 shortLastRun).outs 1).closedAt = (exec 1 2 shortLastRun).calls.length ∧
     0 < ((exec 1 2 shortLastRun).outs 0).eofs ∧ 0 < ((exec 1 2 shortLastRun).outs 1).eofs ∧
     published (exec 1 2 shortLastRun) = [[1], [2], [3]] ∧
     received (exec 1 2 shortLastRun) 0 = [[1], [2], [3], [0]] ∧
     received (exec 1 2 shortLastRun) 1 = [[1], [2], [3], [0]] ∧
     received (exec 1 2 shortLastRun) 0 ≠ published (exec 1 2 shortLastRun)) ∧
    (((exec 1 2 shortRun).outs 0).regAt = 0 ∧
     ((exec 1 2 shortRun).outs 0).closedAt = (exec 1 2 shortRun).calls.length ∧
     0 < ((exec 1 2 shortRun).outs 0).eofs ∧
     published (exec 1 2 shortRun) = [[5]] ∧
     received (exec 1 2 shortRun) 0 = [[5], [0]] ∧
     received (exec 1 2 shortRun) 0 ≠ published (exec 1 2 shortRun)) := by
  decide

/-- Witness of C2: an output registered after the first chunk has read the
second chunk and has the third in its queue; the first never reaches it. -/
theorem delivery_without_backfill_witness :
    ((exec 1 2 lateOutput).outs 0).regAt = 1 ∧ upTo (exec 1 2 lateOutput) 0 = 3 ∧
      seqs (exec 1 2 lateOutput) 0 = [1, 2] :=
  ⟨by decide, by decide,
    (delivery_without_backfill (Reachable.exec 1 2 lateOutput) 0).1.trans (by decide)⟩

/-- Witness of C4: the output is copying out of buffer 0 and has buffer 1 in its
queue; the pool is empty and a further publish gets a new buffer. -/
theorem reclamation_safety_witness :
    ((exec 1 2 recycled).outs 0).slot = some ⟨1, 1, 2⟩ ∧
    ((exec 1 2 recycled).outs 0).pc = .received ⟨0, 1, 1⟩ readBuf ∧
    (1 : Nat) ∉ (exec 1 2 recycled).free ∧ (0 : Nat) ∉ (exec 1 2 recycled).free ∧
    (1 : Nat) ≠ (GetFloat64 (exec 1 2 recycled) (some 0)).1 :=
  have h := reclamation_safety (Reachable.exec 1 2 recycled)
  have h1 : ((exec 1 2 recycled).outs 0).slot = some ⟨1, 1, 2⟩ := by decide
  have h2 : ((exec 1 2 recycled).outs 0).pc = .received ⟨0, 1, 1⟩ readBuf := by decide
  ⟨h1, h2, h.1 0 _ h1, h.2.1 0 _ _ h2, h.2.2.1 (some 0) 0 _ h1⟩

/-- C3, evaluated at the failing input: with two outputs, after both have read
the one published chunk, the two buffers acquired for it are not in the pool and
`Free` was never called. -/
theorem two_readers_never_free :
    (((exec 1 2 twoReaders).outs 0).log.map (fun x => x.seq) = [0] ∧
     ((exec 1 2 twoReaders).outs 1).log.map (fun x => x.seq) = [0]) ∧
    (((exec 1 2 twoReaders).outs 0).slot = none ∧ ((exec 1 2 twoReaders).outs 0).pc = .idle ∧
     ((exec 1 2 twoReaders).outs 1).slot = none ∧ ((exec 1 2 twoReaders).outs 1).pc = .idle) ∧
    (exec 1 2 twoReaders).acquired = [(0, 0), (1, 0)] ∧
    (exec 1 2 twoReaders).freed = [] ∧ (exec 1 2 twoReaders).free = [] := by
  decide

theorem finish_effect {r r1 : Repeater} {j read : Nat} {m : message} {b : Floating}
    (hpc : (r.outs j).pc = .received m b) (hf : finish r j = .ok (r1, read)) :
    ((AddInt32 m.sources (-1) = 0 ∧ r1.free = m.buffer :: r.free ∧
        r1.freed = r.freed ++ [(m.buffer, m.seq)]) ∨
      (AddInt32 m.sources (-1) ≠ 0 ∧ r1.free = r.free ∧ r1.freed = r.freed)) ∧
    (∀ k, (r1.outs k).slot = (r.outs k).slot) ∧
    (∀ k, k ≠ j → (r1.outs k).pc = (r.outs k).pc) := by
  have hout : ∀ (x : ReadRec),
      (∀ k, ((logRead r j x).outs k).slot = (r.outs k).slot) ∧
      (∀ k, k ≠ j → ((logRead r j x).outs k).pc = (r.outs k).pc) := by
    intro x
    refine ⟨fun k => ?_, fun k hk => ?_⟩
    · by_cases hk : k = j
      · subst hk; simp [logRead]
      · simp [logRead, upd_other _ _ hk]
    · simp [logRead, upd_other _ _ hk]
  obtain ⟨m1, b0, b1, hpc1, _, hcase⟩ := finish_cases hf
  rw [hpc] at hpc1
  injection hpc1 with e1 e2
  subst e1 e2
  rcases hcase with ⟨hz, _, e⟩ | ⟨hz, e⟩
  · subst e
    exact ⟨Or.inl ⟨hz, rfl, rfl⟩, hout _⟩
  · subst e
    exact ⟨Or.inr ⟨hz, rfl, rfl⟩, hout _⟩

theorem int32_eq_one {n : Nat} (hn : n < 2 ^ 31) : int32 (n : Int) = 1 ↔ n = 1 := by
  rw [int32_of_small (by omega) (by exact_mod_cast hn)]
  omega

/-- C10. Exact release condition of an output read, for fewer than `2^31`
outputs (the counter is an `int32`): in every reachable state, two holders of
envelopes never share a buffer and the counter of an envelope is the number `N`
of outputs at its `SinkFunc` call; a read frees the buffer of its envelope if and
only if `N = 1`, and otherwise leaves the pool as it is; it changes no envelope
in any queue and no envelope another output is copying out; every `Free` ever
made belongs to a call with `N = 1`, so for `N >= 2` no buffer of the call is
freed. -/
theorem release_iff_single_output {ch bs : Nat} {r : Repeater} (h : Reachable ch bs r)
    (hN : r.nouts < 2 ^ 31) :
    (∀ hd hd1 m m1, live r hd = some m → live r hd1 = some m1 → hd ≠ hd1 →
      m.buffer ≠ m1.buffer) ∧
    (∀ hd m, live r hd = some m → ∃ c, r.calls[m.seq]? = some c ∧ m.sources = c.n) ∧
    (∀ j m b r1 read, (r.outs j).pc = .received m b → finish r j = .ok (r1, read) →
      (∃ c, r.calls[m.seq]? = some c ∧
        ((c.n = 1 ∧ r1.free = m.buffer :: r.free ∧
            r1.freed = r.freed ++ [(m.buffer, m.seq)]) ∨
         (c.n ≠ 1 ∧ r1.free = r.free ∧ r1.freed = r.freed))) ∧
      (∀ k, (r1.outs k).slot = (r.outs k).slot) ∧
      (∀ k, k ≠ j → (r1.outs k).pc = (r.outs k).pc)) ∧
    (∀ b k, (b, k) ∈ r.freed → ∃ c, r.calls[k]? = some c ∧ c.n = 1) := by
  have hi := h.inv
  have hsmall : ∀ {k : Nat} {c : Call}, r.calls[k]? = some c → c.n < 2 ^ 31 := by
    intro k c hc
    have := hi.calls_n c (List.getElem?_mem hc)
    omega
  refine ⟨?_, ?_, ?_, ?_⟩
  · intro hd hd1 m m1 hm hm1 hne hb
    exact hne (hi.live_inj hd hd1 m m1 hm hm1 hb)
  · intro hd m hm
    obtain ⟨_, _, c, hc, hs, _⟩ := hi.live_ok hd m hm
    refine ⟨c, hc, ?_⟩
    rw [hs, int32_of_small (by omega) (by exact_mod_cast hsmall hc)]
  · intro j m b r1 read hpc hf
    obtain ⟨_, _, c, hc, hs, _⟩ := hi.live_ok (.inr j) m (by simp [live, hpc])
    have hiff : AddInt32 m.sources (-1) = 0 ↔ c.n = 1 := by
      rw [hs, AddInt32_zero, int32_eq_one (hsmall hc)]
    obtain ⟨hfree, hslots, hpcs⟩ := finish_effect hpc hf
    refine ⟨⟨c, hc, ?_⟩, hslots, hpcs⟩
    rcases hfree with ⟨hz, h1, h2⟩ | ⟨hz, h1, h2⟩
    · exact Or.inl ⟨hiff.mp hz, h1, h2⟩
    · exact Or.inr ⟨fun e => hz (hiff.mpr e), h1, h2⟩
  · intro b k hb
    obtain ⟨c, hc, h1⟩ := hi.freed_ok b k hb
    exact ⟨c, hc, (int32_eq_one (hsmall hc)).mp h1⟩

/-- Witness of C10: in the run with one output, the only `Free` made belongs
to a call with one output. -/
theorem release_iff_single_output_witness :
    (exec 1 2 recycled).nouts < 2 ^ 31 ∧ (exec 1 2 recycled).freed = [(0, 0)] ∧
      ∃ c, (exec 1 2 recycled).calls[0]? = some c ∧ c.n = 1 :=
  ⟨by decide, by decide,
    (release_iff_single_output (Reachable.exec 1 2 recycled) (by decide)).2.2.2 0 0
      (by decide)⟩

/-! ## Whole calls of `SinkFunc` -/

theorem FloatingAsFloating_ok {s d : Floating} (h : s.channels = d.channels) :
    ∃ out, FloatingAsFloating s d = some (out, min s.Length d.Length) := by
  unfold FloatingAsFloating
  rw [if_pos h]
  exact ⟨_, rfl⟩

theorem sinkIter_ok {r r0 : Repeater} {pick : Option Nat} {inp out : Floating}
    {c b n : Nat} {rest : List Nat} (hs : r.sink = .loop inp (c :: rest))
    (hg : GetFloat64 r pick = (b, r0))
    (hcp : FloatingAsFloating inp (r0.heap b) = some (out, n))
    (hclosed : (r0.outs c).closed = false) (hslot : (r0.outs c).slot = none) :
    sinkIter r pick = .ok (send r0 c b out inp rest) := by
  unfold sinkIter
  rw [hs]
  simp only
  rw [hg]
  simp only
  rw [hcp]
  simp [hclosed, hslot]

theorem sinkLoop_ok {ch bs : Nat} (inp : Floating) (hch : inp.channels = ch) :
    ∀ (rest : List Nat) (r : Repeater) (fuel : Nat) (picks : List (Option Nat)),
      Reachable ch bs r → r.sink = .loop inp rest → rest.length < fuel →
      (∀ c ∈ rest, (r.outs c).slot = none) →
      ∃ r1, sinkLoop r fuel picks = (.returned none, r1) ∧ Reachable ch bs r1 ∧
        r1.sink = .idle ∧ r1.sources = r.sources ∧ r1.calls = r.calls ∧
        r1.acquired.length = r.acquired.length + rest.length ∧
        (∀ c ∈ rest, ∃ m, (r1.outs c).slot = some m ∧ m.seq = r.calls.length - 1) ∧
        (∀ c, c ∉ rest → r1.outs c = r.outs c) := by
  intro rest
  induction rest with
  | nil =>
    intro r fuel picks hr hs hfuel _
    obtain ⟨f, rfl⟩ : ∃ f, fuel = f + 1 := ⟨fuel - 1, by simp at hfuel; omega⟩
    have hret : sinkReturn r = .ok { r with sink := .idle } := by
      unfold sinkReturn
      rw [hs]
    refine ⟨{ r with sink := .idle }, ?_, Reachable.step .sinkReturn hr hret, rfl, rfl, rfl,
      rfl, ?_, fun _ _ => rfl⟩
    · unfold sinkLoop
      rw [hs]
      simp only
      rw [hret]
    · intro c hc
      cases hc
  | cons c rest ih =>
    intro r fuel picks hr hs hfuel hfree
    obtain ⟨f, rfl⟩ : ∃ f, fuel = f + 1 := ⟨fuel - 1, by simp at hfuel; omega⟩
    have hi := hr.inv
    obtain ⟨hsub, _⟩ := hi.loop_ok _ _ hs
    have hnd : (c :: rest).Nodup := hi.src_nodup.sublist hsub
    have hcr : c ∉ rest := (List.nodup_cons.mp hnd).1
    have hcs : c ∈ r.sources := hsub.subset (List.mem_cons_self _ _)
    rcases hg : GetFloat64 r picks.head?.join with ⟨b, r0⟩
    obtain ⟨h0, _, _, _, _, houts, hsrc0, hcalls0⟩ := hi.after_GetFloat64 hg
    have hacq0 : r0.acquired = r.acquired := by
      have e : (GetFloat64 r picks.head?.join).2.acquired = r.acquired := by
        unfold GetFloat64
        split
        · split <;> rfl
        · rfl
      rw [hg] at e
      exact e
    have hcfg := GetFloat64_config r picks.head?.join
    rw [hg] at hcfg
    obtain ⟨out, hcp⟩ := FloatingAsFloating_ok (s := inp) (d := r0.heap b)
      (by rw [(h0.heap_shape _).1, hcfg.1, hr.config.1, hch])
    have hiter := sinkIter_ok hs hg hcp
      (by rw [houts]; exact (hi.src_lt c hcs).2)
      (by rw [houts]; exact hfree c (List.mem_cons_self _ _))
    have hr2 := Reachable.step (.sinkIter picks.head?.join) hr hiter
    obtain ⟨r1, hrun, hr1, hidle, hsrc, hcalls, hacq, hsl, hot⟩ :=
      ih _ f picks.tail hr2 rfl (by simp at hfuel; omega) (by
        intro k hk
        have hkc : k ≠ c := fun e => hcr (e ▸ hk)
        simp only [send, upd_other _ _ hkc, houts]
        exact hfree k (List.mem_cons_of_mem _ hk))
    refine ⟨r1, ?_, hr1, hidle, ?_, ?_, ?_, ?_, ?_⟩
    · rw [sinkLoop, hs]
      simp only
      rw [hiter]
      exact hrun
    · rw [hsrc]
      exact hsrc0
    · rw [hcalls]
      exact hcalls0
    · rw [hacq]
      have e : (send r0 c b out inp rest).acquired.length = r.acquired.length + 1 := by
        simp only [send, List.length_append, List.length_singleton, hacq0]
      rw [e, List.length_cons]
      omega
    · intro k hk
      rcases List.mem_cons.mp hk with e | hk
      · subst e
        rw [hot k hcr]
        refine ⟨⟨b, int32 r0.sources.length, r0.calls.length - 1⟩, by simp only [send, upd_same],
          ?_⟩
        simp only [send, hcalls0]
      · obtain ⟨m, hm, hseq⟩ := hsl k hk
        refine ⟨m, hm, ?_⟩
        rw [hseq]
        simp only [send, hcalls0]
    · intro k hk
      have hkc : k ≠ c := fun e => hk (e ▸ List.mem_cons_self _ _)
      have hkr : k ∉ rest := fun e => hk (List.mem_cons_of_mem _ e)
      rw [hot k hkr]
      simp only [send, upd_other _ _ hkc, houts]

/-- What a whole call of `SinkFunc` does: in every reachable state between
calls, for a chunk with the configured channel count and `N` registered outputs
whose queues are empty, `SinkFunc` returns nil, has acquired `N` buffers, and
has enqueued to each output an envelope whose counter is `int32(N)` and whose
buffer holds the copy of the chunk; envelopes of different outputs reference
different buffers. -/
theorem sink_publishes_per_output {ch bs : Nat} {r : Repeater} (h : Reachable ch bs r)
    (hs : r.sink = .idle) (inp : Floating) (hch : inp.channels = ch)
    (hfree : ∀ c ∈ r.sources, (r.outs c).slot = none) (picks : List (Option Nat)) :
    ∃ r1, SinkFunc r inp picks = (.returned none, r1) ∧
      r1.acquired.length = r.acquired.length + r.sources.length ∧
      (∀ c ∈ r.sources, ∃ m, (r1.outs c).slot = some m ∧
        m.sources = int32 r.sources.length ∧ Copied inp (r1.heap m.buffer)) ∧
      (∀ c c1 m m1, (r1.outs c).slot = some m → (r1.outs c1).slot = some m1 → c ≠ c1 →
        m.buffer ≠ m1.buffer) := by
  have hr0 : Reachable ch bs (sinkCall r inp) :=
    Reachable.step (.sinkCall inp) h (by simp only [step, hs])
  obtain ⟨r1, hrun, hr1, _, _, hcalls, hacq, hsl, _⟩ :=
    sinkLoop_ok inp hch r.sources (sinkCall r inp) (r.sources.length + 1) picks hr0
      rfl (by omega) hfree
  have hi := hr1.inv
  refine ⟨r1, hrun, hacq, ?_, ?_⟩
  · intro c hc
    obtain ⟨m, hm, hseq⟩ := hsl c hc
    obtain ⟨_, _, c0, hc0, hsrc, hcp⟩ := hi.live_ok (.inl c) m hm
    have e : c0 = ⟨inp, r.sources.length⟩ := by
      rw [hcalls, hseq] at hc0
      simp only [sinkCall, List.length_append, List.length_singleton, Nat.add_sub_cancel,
        List.getElem?_concat_length] at hc0
      injection hc0 with hc0
      exact hc0.symm
    subst e
    exact ⟨m, hm, hsrc, hcp⟩
  · intro c c1 m m1 hm hm1 hne hb
    have := hi.live_inj (.inl c) (.inl c1) m m1 hm hm1 hb
    injection this with this
    exact hne this

/-- A whole call of `SinkFunc` with two outputs whose queues are empty. -/
theorem sink_publishes_per_output_witness :
    ∃ r1, SinkFunc (exec 1 2 [.source 2, .source 2]) chunkA [] = (.returned none, r1) ∧
      r1.acquired.length = 2 :=
  have h := sink_publishes_per_output (Reachable.exec 1 2 [.source 2, .source 2]) (by decide)
    chunkA (by decide) (by decide) []
  h.elim fun r1 h1 => ⟨r1, h1.1, h1.2.1.trans (by decide)⟩

/-- C5, evaluated at the failing input: with two outputs one call of `SinkFunc`
acquires two buffers, not one, and the envelopes sent to the two outputs
reference different buffers, each with the count 2. -/
theorem sink_acquires_two_buffers :
    (SinkFunc (exec 1 2 [.source 2, .source 2]) chunkA []).1 = .returned none ∧
    (SinkFunc (exec 1 2 [.source 2, .source 2]) chunkA []).2.acquired = [(0, 0), (1, 0)] ∧
    ((SinkFunc (exec 1 2 [.source 2, .source 2]) chunkA []).2.outs 0).slot = some ⟨0, 2, 0⟩ ∧
    ((SinkFunc (exec 1 2 [.source 2, .source 2]) chunkA []).2.outs 1).slot = some ⟨1, 2, 0⟩ := by
  decide

/-! ## End of stream -/

theorem FlushFunc_ok {r : Repeater} (h : Inv r) :
    FlushFunc r = .ok { r with
      outs := fun c =>
        if c ∈ r.sources then { r.outs c with closed := true, closedAt := r.calls.length }
        else r.outs c
      sources := [] } := by
  unfold FlushFunc
  rw [if_pos ⟨h.src_nodup, fun c hc => (h.src_lt c hc).2⟩]

theorem SourceFunc_eof {r : Repeater} {j : Nat} (b : Floating)
    (hpc : (r.outs j).pc = .idle) (hclosed : (r.outs j).closed = true)
    (hslot : (r.outs j).slot = none) :
    SourceFunc r j b = .ok ({ r with
      outs := upd r.outs j { r.outs j with eofs := (r.outs j).eofs + 1 } }, 0, some .EOF) := by
  unfold SourceFunc recv
  simp [hpc, hclosed, hslot]

theorem SourceFunc_err {r r1 : Repeater} {j n : Nat} {b : Floating} {e : Error}
    (hf : SourceFunc r j b = .ok (r1, n, some e)) :
    n = 0 ∧ e = .EOF ∧ (r.outs j).closed = true ∧ (r.outs j).slot = none := by
  unfold SourceFunc recv at hf
  split at hf
  · cases hf
  · rename_i r2 hrecv
    split at hrecv
    · split at hrecv
      · injection hrecv with hrecv
        subst hrecv
        simp only [upd_same] at hf
        split at hf
        · cases hf
        · cases hf
      · rename_i hslot
        split at hrecv
        · rename_i hclosed
          injection hrecv with hrecv
          subst hrecv
          simp only [upd_same] at hf
          split at hf
          · injection hf with hf
            injection hf with _ hf
            injection hf with h1 h2
            injection h2 with h2
            exact ⟨h1.symm, h2.symm, hclosed, hslot⟩
          · split at hf
            · cases hf
            · cases hf
        · cases hrecv
    · cases hrecv

theorem copy_frames {s d d1 : Floating} {n : Nat}
    (h : FloatingAsFloating s d = some (d1, n)) : d1.frames.take n = s.frames.take n := by
  obtain ⟨_, hn, _, hfr, _⟩ := FloatingAsFloating_some h
  simp only [Floating.Length] at hn
  rw [hfr, List.take_append_of_le_length (by simp; omega)]
  simp

theorem finish_ok {r : Repeater} {j n : Nat} {m : message} {b out : Floating}
    (hpc : (r.outs j).pc = .received m b)
    (hcp : FloatingAsFloating (r.heap m.buffer) b = some (out, n))
    (hpool : AddInt32 m.sources (-1) = 0 → (r.outs j).bufferSize = r.bufferSize) :
    finish r j = .ok
      (if AddInt32 m.sources (-1) = 0 then
        pooled (logRead r j ⟨m.seq, m.buffer, b.Length, n, out.frames.take n⟩) m.buffer m.seq
      else logRead r j ⟨m.seq, m.buffer, b.Length, n, out.frames.take n⟩, n) := by
  unfold finish
  rw [hpc]
  simp only
  rw [hcp]
  simp only
  split
  · rename_i hz
    have e : ((logRead r j ⟨m.seq, m.buffer, b.Length, n, out.frames.take n⟩).outs j).bufferSize
        = (logRead r j ⟨m.seq, m.buffer, b.Length, n, out.frames.take n⟩).bufferSize := by
      simpa [logRead] using hpool hz
    unfold Free
    rw [if_pos e]
  · rfl

theorem SourceFunc_last {ch bs : Nat} {r : Repeater} (h : Reachable ch bs r) {j : Nat}
    {m : message} (b : Floating) (hb : b.channels = ch) (hpc : (r.outs j).pc = .idle)
    (hclosed : (r.outs j).closed = true) (hslot : (r.outs j).slot = some m)
    (hpool : m.sources = 1 → (r.outs j).bufferSize = bs) :
    ∃ r1, SourceFunc r j b = .ok (r1, min bs b.Length, none) ∧ Drained r1 j ∧
      (r1.outs j).log = (r.outs j).log ++
        [⟨m.seq, m.buffer, b.Length, min bs b.Length,
          (r.heap m.buffer).frames.take (min bs b.Length)⟩] ∧
      ∃ c, r.calls[m.seq]? = some c ∧ Copied c.inp (r.heap m.buffer) := by
  have hi := h.inv
  obtain ⟨_, _, c, hc, hsrc, hcopied⟩ := hi.live_ok (.inl j) m hslot
  have hch : (r.heap m.buffer).channels = b.channels := by
    rw [(hi.heap_shape _).1, h.config.1, hb]
  have hlen : (r.heap m.buffer).Length = bs := by
    rw [(hi.heap_shape _).2, h.config.2]
  obtain ⟨out, hcp⟩ := FloatingAsFloating_ok hch
  rw [hlen] at hcp
  have hfr := copy_frames hcp
  have hrecv : recv r j b = .ok { r with
      outs := upd r.outs j { r.outs j with slot := none, pc := .received m b } } := by
    unfold recv
    simp [hpc, hslot]
  have hfin := finish_ok (r := { r with
      outs := upd r.outs j { r.outs j with slot := none, pc := .received m b } })
    (j := j) (m := m) (b := b) (by simp) hcp (by
      intro hz
      have h1 : m.sources = 1 := by
        rw [hsrc] at hz ⊢
        exact AddInt32_zero.mp hz
      simp only [upd_same]
      rw [hpool h1, h.config.2])
  obtain ⟨r1, hr1, hd, hlog⟩ : ∃ r1, finish { r with
      outs := upd r.outs j { r.outs j with slot := none, pc := .received m b } } j
        = .ok (r1, min bs b.Length) ∧ Drained r1 j ∧
        (r1.outs j).log = (r.outs j).log ++
          [⟨m.seq, m.buffer, b.Length, min bs b.Length,
            (r.heap m.buffer).frames.take (min bs b.Length)⟩] := by
    refine ⟨_, hfin, ?_, ?_⟩
    · split
      · simp [Drained, pooled, logRead, hclosed]
      · simp [Drained, logRead, hclosed]
    · split
      · simp [pooled, logRead, hfr]
      · simp [logRead, hfr]
  have hS : SourceFunc r j b = .ok (r1, min bs b.Length, none) := by
    unfold SourceFunc
    rw [hrecv]
    simp only [upd_same]
    rw [hr1]
  exact ⟨r1, hS, hd, hlog, c, hc, hcopied⟩

theorem GetFloat64_outs (r : Repeater) (pick : Option Nat) :
    (GetFloat64 r pick).2.outs = r.outs := by
  unfold GetFloat64
  split
  · split <;> rfl
  · rfl

theorem Drained.stable {r r1 : Repeater} {j : Nat} (hd : Drained r j) (hi : Inv r)
    {a : Action} (hf : step r a = .ok r1) : Drained r1 j := by
  obtain ⟨hclosed, hslot, hpc⟩ := hd
  have hns : j ∉ r.sources := fun hm => by
    have := (hi.src_lt j hm).2
    rw [hclosed] at this
    cases this
  cases a with
  | source =>
    simp only [step] at hf
    split at hf
    · injection hf with hf
      subst hf
      have hj : j ≠ r.nouts := by
        intro e
        have := hi.unreg j (by omega)
        rw [this] at hclosed
        simp [Output.fresh] at hclosed
      simp only [Drained, Source, upd_other _ _ hj]
      exact ⟨hclosed, hslot, hpc⟩
    · cases hf
  | sinkCall inp =>
    simp only [step] at hf
    split at hf
    · injection hf with hf
      subst hf
      exact ⟨hclosed, hslot, hpc⟩
    · cases hf
  | sinkIter pick =>
    replace hf : sinkIter r pick = .ok r1 := hf
    unfold sinkIter at hf
    split at hf
    · rename_i inp c rest hs
      split at hf
      rename_i b r0 hg
      have houts : r0.outs = r.outs := by
        have := GetFloat64_outs r pick
        rw [hg] at this
        exact this
      split at hf
      · cases hf
      · split at hf
        · cases hf
        · split at hf
          · cases hf
          · injection hf with hf
            subst hf
            have hcs : c ∈ r.sources :=
              (hi.loop_ok _ _ hs).1.subset (List.mem_cons_self _ _)
            have hj : j ≠ c := fun e => hns (e ▸ hcs)
            simp only [Drained, send, upd_other _ _ hj, houts]
            exact ⟨hclosed, hslot, hpc⟩
    · cases hf
  | sinkReturn =>
    simp only [step, sinkReturn] at hf
    split at hf
    · injection hf with hf
      subst hf
      exact ⟨hclosed, hslot, hpc⟩
    · cases hf
  | flush =>
    simp only [step] at hf
    split at hf
    · rw [FlushFunc_ok hi] at hf
      injection hf with hf
      subst hf
      simp only [Drained, hns, if_false]
      exact ⟨hclosed, hslot, hpc⟩
    · cases hf
  | recv k b =>
    replace hf : recv r k b = .ok r1 := hf
    by_cases hk : j = k
    · subst hk
      unfold recv at hf
      simp only [hpc, hslot, hclosed, if_true] at hf
      injection hf with hf
      subst hf
      simp [Drained, hclosed, hslot, hpc]
    · unfold recv at hf
      split at hf
      · split at hf
        · injection hf with hf
          subst hf
          simp only [Drained, upd_other _ _ hk]
          exact ⟨hclosed, hslot, hpc⟩
        · split at hf
          · injection hf with hf
            subst hf
            simp only [Drained, upd_other _ _ hk]
            exact ⟨hclosed, hslot, hpc⟩
          · cases hf
      · cases hf
  | finish k =>
    simp only [step] at hf
    split at hf
    · rename_i r2 n hfin
      injection hf with hf
      subst hf
      obtain ⟨m, b, b1, hpck, _, hcase⟩ := finish_cases hfin
      have hk : j ≠ k := by
        intro e
        subst e
        rw [hpc] at hpck
        cases hpck
      rcases hcase with ⟨_, _, e⟩ | ⟨_, e⟩
      · subst e
        simp only [Drained, pooled, logRead, upd_other _ _ hk]
        exact ⟨hclosed, hslot, hpc⟩
      · subst e
        simp only [Drained, logRead, upd_other _ _ hk]
        exact ⟨hclosed, hslot, hpc⟩
    · cases hf

/-- C6. End-of-stream on flush: in every reachable state between `SinkFunc`
calls `FlushFunc` succeeds, leaves the list of outputs empty and every output
closed with its queue content untouched. For an output with no read under way,
`SourceFunc` returns an error exactly when the queue is closed and empty, and
the return is then `(0, io.EOF)`. A chunk queued in a closed queue is delivered
by the next read: for a buffer `b` of the configured channel count, and an
output that runs with the buffer size of the sink when the counter of the
envelope is 1 (so that `Free` is given the pool the buffer came from), the read
returns `min(bufferSize, len(b))` frames and a nil error, what it hands over
are the first frames of the queued buffer, which holds the copy of the chunk of
its `SinkFunc` call, and the output is then at end of stream. An output at end
of stream stays so under every step, and each read of it returns
`(0, io.EOF)`. -/
theorem flush_end_of_stream {ch bs : Nat} {r : Repeater} (h : Reachable ch bs r) (j : Nat) :
    (r.sink = .idle → ∃ r1, FlushFunc r = .ok r1 ∧ r1.sources = [] ∧
      ∀ c ∈ r.sources, (r1.outs c).closed = true ∧ (r1.outs c).slot = (r.outs c).slot) ∧
    ((r.outs j).pc = .idle → ∀ b,
      ((∃ r1 n e, SourceFunc r j b = .ok (r1, n, some e)) ↔
        ((r.outs j).closed = true ∧ (r.outs j).slot = none)) ∧
      (∀ r1 n e, SourceFunc r j b = .ok (r1, n, some e) → n = 0 ∧ e = .EOF)) ∧
    ((r.outs j).pc = .idle → (r.outs j).closed = true → ∀ m b, (r.outs j).slot = some m →
      b.channels = ch → (m.sources = 1 → (r.outs j).bufferSize = bs) →
      ∃ r1, SourceFunc r j b = .ok (r1, min bs b.Length, none) ∧ Drained r1 j ∧
        (r1.outs j).log = (r.outs j).log ++
          [⟨m.seq, m.buffer, b.Length, min bs b.Length,
            (r.heap m.buffer).frames.take (min bs b.Length)⟩] ∧
        ∃ c, r.calls[m.seq]? = some c ∧ Copied c.inp (r.heap m.buffer)) ∧
    (Drained r j →
      (∀ a r1, step r a = .ok r1 → Drained r1 j) ∧
      (∀ b, ∃ r1, SourceFunc r j b = .ok (r1, 0, some .EOF) ∧ Drained r1 j)) := by
  have hi := h.inv
  refine ⟨?_, ?_, ?_, ?_⟩
  · intro _
    refine ⟨_, FlushFunc_ok hi, rfl, ?_⟩
    intro c hc
    simp [hc]
  · intro hpc b
    refine ⟨⟨?_, ?_⟩, ?_⟩
    · rintro ⟨r1, n, e, hf⟩
      exact (SourceFunc_err hf).2.2
    · rintro ⟨hclosed, hslot⟩
      exact ⟨_, 0, .EOF, SourceFunc_eof b hpc hclosed hslot⟩
    · intro r1 n e hf
      exact ⟨(SourceFunc_err hf).1, (SourceFunc_err hf).2.1⟩
  · intro hpc hclosed m b hslot hb hpool
    exact SourceFunc_last h b hb hpc hclosed hslot hpool
  · intro hd
    refine ⟨fun a r1 hf => hd.stable hi hf, ?_⟩
    intro b
    refine ⟨_, SourceFunc_eof b hd.2.2 hd.1 hd.2.1, ?_⟩
    simp [Drained, hd.1, hd.2.1, hd.2.2]

/-- Witness of C6: the chunk `[1, 2]` is queued when `FlushFunc` runs; the next
read returns two frames and a nil error, hands over `[1, 2]` and leaves the
output at end of stream. -/
theorem flush_end_of_stream_witness :
    ((exec 1 2 flushedWithChunk).outs 0).slot = some ⟨0, 1, 0⟩ ∧
      ∃ r1, SourceFunc (exec 1 2 flushedWithChunk) 0 readBuf = .ok (r1, 2, none) ∧
        Drained r1 0 ∧ (r1.outs 0).log = [⟨0, 0, 2, 2, [[1], [2]]⟩] :=
  ⟨by decide,
    ((flush_end_of_stream (Reachable.exec 1 2 flushedWithChunk) 0).2.2.1 (by decide)
      (by decide) ⟨0, 1, 0⟩ readBuf (by decide) (by decide) (by decide)).elim
      fun r1 h1 => ⟨r1, h1.1, h1.2.1, h1.2.2.1.trans (by decide)⟩⟩

/-! ## Shape of the chunks -/

theorem sinkLoop_returns_nil :
    ∀ (fuel : Nat) (r r1 : Repeater) (picks : List (Option Nat)) (e : Option Error),
      sinkLoop r fuel picks = (.returned e, r1) → e = none := by
  intro fuel
  induction fuel with
  | zero =>
    intro r r1 picks e hf
    simp [sinkLoop] at hf
  | succ f ih =>
    intro r r1 picks e hf
    unfold sinkLoop at hf
    split at hf
    · split at hf
      · injection hf with hf _
        injection hf with hf
        exact hf.symm
      · injection hf with hf _
        cases hf
    · split at hf
      · exact ih _ _ _ _ hf
      · injection hf with hf _
        cases hf
      · injection hf with hf _
        cases hf

theorem GetFloat64_heap (r : Repeater) (pick : Option Nat) :
    (GetFloat64 r pick).2.heap = r.heap := by
  unfold GetFloat64
  split
  · split <;> rfl
  · rfl

theorem sinkIter_mismatch {r : Repeater} (inp : Floating) (c : Nat) (rest : List Nat)
    (pick : Option Nat) (hs : r.sink = .loop inp (c :: rest))
    (hch : ∀ b, inp.channels ≠ (r.heap b).channels) :
    sinkIter r pick = .error .panicked := by
  unfold sinkIter
  rw [hs]
  simp only
  have e : FloatingAsFloating inp ((GetFloat64 r pick).2.heap (GetFloat64 r pick).1) = none := by
    unfold FloatingAsFloating
    rw [if_neg]
    rw [GetFloat64_heap]
    exact hch _
  rcases hg : GetFloat64 r pick with ⟨b, r0⟩
  rw [hg] at e
  simp only
  rw [e]

/-- C7 (as amended). `SinkFunc` has no shape check and no error return: a call
that returns returns nil, whatever the channel count of the chunk. In a
reachable state, with no output registered it returns nil for
every chunk; with an output registered and a chunk whose channel count differs
from the configured one, the call does not return (the copy into the pooled
buffer aborts) and no queue is touched. -/
theorem sink_has_no_shape_error {ch bs : Nat} {r : Repeater} (h : Reachable ch bs r)
    (inp : Floating) (picks : List (Option Nat)) :
    (∀ e, (SinkFunc r inp picks).1 = .returned e → e = none) ∧
    (r.sources = [] → (SinkFunc r inp picks).1 = .returned none) ∧
    (r.sources ≠ [] → inp.channels ≠ ch →
      (SinkFunc r inp picks).1 = .panicked ∧ (SinkFunc r inp picks).2.outs = r.outs) := by
  refine ⟨?_, ?_, ?_⟩
  · intro e he
    exact sinkLoop_returns_nil _ _ (SinkFunc r inp picks).2 picks e
      (Prod.ext he rfl)
  · intro hnil
    unfold SinkFunc
    rw [hnil]
    simp [sinkLoop, sinkCall, sinkReturn, hnil]
  · intro hne hch
    obtain ⟨c, rest, hcr⟩ : ∃ c rest, r.sources = c :: rest := by
      cases hsrc : r.sources with
      | nil => exact absurd hsrc hne
      | cons c rest => exact ⟨c, rest, rfl⟩
    have hi := h.inv
    have hpanic : sinkIter (sinkCall r inp) picks.head?.join = .error .panicked := by
      apply sinkIter_mismatch inp c rest
      · simp only [sinkCall, hcr]
      · intro b
        show inp.channels ≠ (r.heap b).channels
        rw [(hi.heap_shape b).1, h.config.1]
        exact hch
    have hrun : SinkFunc r inp picks = (.panicked, sinkCall r inp) := by
      unfold SinkFunc
      rw [hcr]
      simp only [List.length_cons, sinkLoop]
      rw [hpanic]
      simp [sinkCall, hcr]
    rw [hrun]
    exact ⟨rfl, rfl⟩

/-- Witness of C7 (as amended): a repeater for two channels with one output,
handed a mono chunk. -/
theorem sink_has_no_shape_error_witness :
    (SinkFunc (exec 2 2 [.source 2]) monoChunk []).1 = .panicked ∧
      (SinkFunc (exec 2 2 [.source 2]) monoChunk []).2.outs = (exec 2 2 [.source 2]).outs :=
  (sink_has_no_shape_error (Reachable.exec 2 2 [.source 2]) monoChunk []).2.2
    (by decide) (by decide)

/-- Counterexample to C7 as stated: a repeater configured for two channels is
handed a mono chunk. With one output the call does not return an error, it
aborts; with no output it returns nil. -/
theorem sink_returns_no_shape_error :
    (SinkFunc (exec 2 2 [.source 2]) monoChunk []).1 = .panicked ∧
    (SinkFunc (exec 2 2 []) monoChunk []).1 = .returned none ∧
    ¬ ∃ e, (SinkFunc (exec 2 2 [.source 2]) monoChunk []).1 = .returned (some e) ∨
        (SinkFunc (exec 2 2 []) monoChunk []).1 = .returned (some e) := by
  refine ⟨by decide, by decide, ?_⟩
  rintro ⟨e, he | he⟩
  · have h : (SinkFunc (exec 2 2 [.source 2]) monoChunk []).1 = .panicked := by decide
    rw [h] at he
    cases he
  · have h : (SinkFunc (exec 2 2 []) monoChunk []).1 = .returned none := by decide
    rw [h] at he
    cases he

/-! ## The track mixer -/

theorem pull_none {s : TrackStream} {k : Nat} (h : s.track.length ≤ s.cursor) :
    s.pull k = none := by
  unfold TrackStream.pull
  rw [if_pos h]

theorem pull_some {s : TrackStream} {k : Nat} (h : ¬ s.track.length ≤ s.cursor) :
    s.pull k = some ((List.range' s.cursor (min k (s.track.length - s.cursor))).map s.track.frame,
      { s with cursor := s.cursor + min k (s.track.length - s.cursor) }) := by
  unfold TrackStream.pull
  rw [if_neg h, List.range'_eq_map_range, List.map_map]
  rfl

theorem drain_spec (k : Nat) (hk : 1 ≤ k) :
    ∀ (fuel : Nat) (s : TrackStream), s.track.length - s.cursor ≤ fuel →
      (s.drain k fuel).2 = true ∧
      (s.drain k fuel).1.flatten
        = (List.range' s.cursor (s.track.length - s.cursor)).map s.track.frame ∧
      ∀ c ∈ (s.drain k fuel).1, 0 < c.length ∧ c.length ≤ k := by
  intro fuel
  induction fuel with
  | zero =>
    intro s hs
    have h : s.track.length ≤ s.cursor := by omega
    have e : s.track.length - s.cursor = 0 := by omega
    simp [TrackStream.drain, pull_none h, e]
  | succ fuel ih =>
    intro s hs
    by_cases h : s.track.length ≤ s.cursor
    · have e : s.track.length - s.cursor = 0 := by omega
      simp [TrackStream.drain, pull_none h, e]
    · obtain ⟨h1, h2, h3⟩ := ih
        { s with cursor := s.cursor + min k (s.track.length - s.cursor) }
        (by
          show s.track.length - (s.cursor + min k (s.track.length - s.cursor)) ≤ fuel
          omega)
      simp only [TrackStream.drain, pull_some h]
      refine ⟨h1, ?_, ?_⟩
      · rw [List.flatten_cons, h2]
        show _ ++ List.map s.track.frame (List.range' (s.cursor + min k (s.track.length - s.cursor))
          (s.track.length - (s.cursor + min k (s.track.length - s.cursor)))) = _
        rw [← List.map_append, List.range'_append_1]
        congr 2
        omega
      · intro c hc
        rcases List.mem_cons.mp hc with e | hc
        · subst e
          simp only [List.length_map, List.length_range']
          omega
        · exact h3 c hc

theorem chunks_spec (t : Track) (k : Nat) (hk : 1 ≤ k) :
    (t.chunks k).2 = true ∧
    (t.chunks k).1.flatten = (List.range t.length).map t.frame ∧
    ∀ c ∈ (t.chunks k).1, 0 < c.length ∧ c.length ≤ k := by
  have h := drain_spec k hk t.length t.Source (by simp [Track.Source])
  simp only [Track.Source, Nat.sub_zero] at h
  rw [← List.range_eq_range']  at h
  exact h

/-- C9. Track chunk-size independence: for every track and every chunk size
`K ≥ 1`, pulling the stream with chunk size `K` reaches end of stream, as does
pulling with chunk size 1, and the concatenated chunks are the same sequence;
it holds exactly as many frames as the track is long, and every chunk holds
between 1 and `K` frames, so the last chunk is not padded. -/
theorem chunk_size_independence (t : Track) (k : Nat) (hk : 1 ≤ k) :
    (t.chunks k).2 = true ∧ (t.chunks 1).2 = true ∧
    (t.chunks k).1.flatten = (t.chunks 1).1.flatten ∧
    (t.chunks k).1.flatten.length = t.length ∧
    ∀ c ∈ (t.chunks k).1, 0 < c.length ∧ c.length ≤ k := by
  obtain ⟨h1, h2, h3⟩ := chunks_spec t k hk
  obtain ⟨g1, g2, _⟩ := chunks_spec t 1 (le_refl 1)
  refine ⟨h1, g1, by rw [h2, g2], ?_, h3⟩
  rw [h2]
  simp

/-- Witness of C9: the track of the "Sequence" case of `track_test.go`, seven
frames long, pulled with chunk size 2 and with chunk size 1. -/
theorem chunk_size_independence_witness :
    ((build 44100 1 [(3, asset1.Clip 3 1), (4, asset2.Clip 5 3)]).chunks 2).1.flatten
      = ((build 44100 1 [(3, asset1.Clip 3 1), (4, asset2.Clip 5 3)]).chunks 1).1.flatten ∧
    ((build 44100 1 [(3, asset1.Clip 3 1), (4, asset2.Clip 5 3)]).chunks 2).1.flatten.length
      = 7 :=
  have h := chunk_size_independence
    (build 44100 1 [(3, asset1.Clip 3 1), (4, asset2.Clip 5 3)]) 2 (by decide)
  ⟨h.2.2.1, h.2.2.2.1.trans (by decide)⟩

theorem build_append (sr ch : Nat) (adds : List (Nat × Clip)) (a : Nat × Clip) :
    build sr ch (adds ++ [a]) = (build sr ch adds).AddClip a.1 a.2 := by
  simp [build, List.foldl_append]

theorem build_placements (sr ch : Nat) (adds : List (Nat × Clip)) :
    (build sr ch adds).channels = ch ∧
    (build sr ch adds).placements.map (fun p => (p.position, p.clip)) = adds ∧
    (∀ p ∈ (build sr ch adds).placements, p.seq < (build sr ch adds).placements.length) ∧
    (build sr ch adds).placements.Pairwise (fun p q => p.seq < q.seq) := by
  induction adds using List.reverseRecOn with
  | nil => simp [build, NewTrack]
  | append_singleton adds a ih =>
    obtain ⟨h1, h2, h3, h4⟩ := ih
    rw [build_append]
    refine ⟨h1, ?_, ?_, ?_⟩
    · simp [Track.AddClip, h2]
    · intro p hp
      simp only [Track.AddClip, List.mem_append, List.mem_singleton, List.length_append,
        List.length_singleton] at hp ⊢
      rcases hp with hp | hp
      · have := h3 p hp
        omega
      · subst hp
        simp
    · simp only [Track.AddClip]
      rw [List.pairwise_append]
      refine ⟨h4, List.pairwise_singleton _ _, ?_⟩
      intro p hp q hq
      simp only [List.mem_singleton] at hq
      subst hq
      exact h3 p hp

theorem foldl_pickLater (f : Nat) :
    ∀ (l : List Placement) (best : Option Placement),
      l.Pairwise (fun p q => p.seq < q.seq) →
      (∀ q, best = some q → ∀ p ∈ l, q.seq < p.seq) →
      l.foldl (pickLater f) best = (l.reverse.find? (fun p => p.active f)).or best := by
  intro l
  induction l with
  | nil => intro best _ _; simp
  | cons x l ih =>
    intro best hp hb
    rw [List.pairwise_cons] at hp
    rw [List.foldl_cons, List.reverse_cons, List.find?_append, List.find?_singleton,
      Option.or_assoc]
    by_cases hx : x.active f
    · have e : pickLater f best x = some x := by
        unfold pickLater
        rw [if_pos hx]
        cases best with
        | none => rfl
        | some q =>
          have := hb q rfl x (List.mem_cons_self _ _)
          simp [this]
      rw [e, ih (some x) hp.2 (by
        intro q hq p hpl
        injection hq with hq
        subst hq
        exact hp.1 p hpl)]
      simp [hx]
    · have e : pickLater f best x = best := by
        unfold pickLater
        rw [if_neg hx]
      rw [e, ih best hp.2 (fun q hq p hpl => hb q hq p (List.mem_cons_of_mem _ hpl))]
      simp [hx]

theorem find?_congr_mem {α : Type} {p q : α → Bool} :
    ∀ (l : List α), (∀ x ∈ l, p x = q x) → l.find? p = l.find? q := by
  intro l
  induction l with
  | nil => intro _; rfl
  | cons x l ih =>
    intro h
    rw [List.find?_cons, List.find?_cons, h x (List.mem_cons_self _ _),
      ih (fun y hy => h y (List.mem_cons_of_mem _ hy))]

theorem effLen_inside {c : Clip} (h : c.start + c.len ≤ c.asset.data.length) :
    c.effLen = c.len := by
  unfold Clip.effLen
  rw [if_pos h]

theorem winner_covering (sr ch : Nat) (adds : List (Nat × Clip))
    (hin : ∀ a ∈ adds, a.2.start + a.2.len ≤ a.2.asset.data.length) (f : Nat) :
    covering adds f = ((build sr ch adds).winner f).map (fun p => (p.position, p.clip)) := by
  obtain ⟨_, h2, _, h4⟩ := build_placements sr ch adds
  unfold Track.winner
  rw [foldl_pickLater f _ none h4 (by intro q hq; cases hq), Option.or_none]
  unfold covering
  conv_lhs => rw [← h2]
  rw [← List.map_reverse, List.find?_map]
  congr 1
  apply find?_congr_mem
  intro p hp
  have hp' : (p.position, p.clip) ∈ adds := by
    rw [← h2]
    exact List.mem_map_of_mem _ (List.mem_reverse.mp hp)
  have := effLen_inside (hin _ hp')
  simp only [Function.comp, Placement.active]
  simp only at this
  rw [this]

theorem foldl_max_eq {α : Type} (g : α → Nat) :
    ∀ (l : List α) (acc : Nat),
      l.foldl (fun acc p => max acc (g p)) acc = max acc ((l.map g).foldr max 0) := by
  intro l
  induction l with
  | nil => intro acc; simp
  | cons x l ih =>
    intro acc
    rw [List.foldl_cons, ih, List.map_cons, List.foldr_cons, max_assoc]

theorem length_extent (sr ch : Nat) (adds : List (Nat × Clip))
    (hin : ∀ a ∈ adds, a.2.start + a.2.len ≤ a.2.asset.data.length) :
    (build sr ch adds).length = extent adds := by
  obtain ⟨_, h2, _, _⟩ := build_placements sr ch adds
  unfold Track.length extent
  have e := foldl_max_eq (fun p : Placement => p.position + p.clip.effLen)
    (build sr ch adds).placements 0
  refine e.trans ?_
  rw [Nat.zero_max]
  congr 1
  conv_rhs => rw [← h2]
  rw [List.map_map]
  apply List.map_congr_left
  intro p hp
  have hp' : (p.position, p.clip) ∈ adds := by
    rw [← h2]
    exact List.mem_map_of_mem _ hp
  have := effLen_inside (hin _ hp')
  simp only [Function.comp]
  simp only at this
  rw [this]

theorem frame_mixed (sr ch : Nat) (adds : List (Nat × Clip))
    (hin : ∀ a ∈ adds, a.2.start + a.2.len ≤ a.2.asset.data.length) (f : Nat) :
    (build sr ch adds).frame f = mixed ch adds f := by
  unfold Track.frame mixed
  rw [winner_covering sr ch adds hin f, (build_placements sr ch adds).1]
  cases (build sr ch adds).winner f <;> rfl

/-- C8. Track mixing by insertion order: for every track built by a sequence of
`AddClip(position, clip)` calls whose clips lie inside their assets and every
chunk size `K ≥ 1`, the stream reaches end of stream, the concatenated chunks
hold as many frames as the maximum of position plus clip length, and the frame
at every index `f` below that is the asset sample, at index clip start plus `f`
minus position, of the most recently added placement covering `f`, or silence
when no placement covers `f`. -/
theorem track_mixing (sr ch : Nat) (adds : List (Nat × Clip))
    (hin : ∀ a ∈ adds, a.2.start + a.2.len ≤ a.2.asset.data.length) (k : Nat)
    (hk : 1 ≤ k) :
    ((build sr ch adds).chunks k).2 = true ∧
    ((build sr ch adds).chunks k).1.flatten.length = extent adds ∧
    (∀ f, f < extent adds →
      ((build sr ch adds).chunks k).1.flatten[f]? = some (mixed ch adds f)) ∧
    (∀ f a, covering adds f = some a →
      a ∈ adds ∧ a.1 ≤ f ∧ f < a.1 + a.2.len ∧
      a.2.asset.data[a.2.start + (f - a.1)]? = some (mixed ch adds f)) ∧
    (∀ f, covering adds f = none → mixed ch adds f = List.replicate ch 0) := by
  obtain ⟨h1, h2, _⟩ := chunks_spec (build sr ch adds) k hk
  have hlen := length_extent sr ch adds hin
  refine ⟨h1, ?_, ?_, ?_, ?_⟩
  · rw [h2]
    simp [hlen]
  · intro f hf
    rw [h2, List.getElem?_map, List.getElem?_range (by rw [hlen]; exact hf)]
    simp [frame_mixed sr ch adds hin f]
  · intro f a ha
    have hmem : a ∈ adds := by
      have := List.mem_of_find?_eq_some ha
      exact List.mem_reverse.mp this
    have hact := List.find?_some ha
    simp only [Bool.and_eq_true, decide_eq_true_eq] at hact
    refine ⟨hmem, hact.1, hact.2, ?_⟩
    have hb := hin a hmem
    have hidx : a.2.start + (f - a.1) < a.2.asset.data.length := by omega
    unfold mixed
    rw [ha]
    simp only
    rw [List.getElem?_eq_getElem hidx]
    simp
  · intro f hf
    unfold mixed
    rw [hf]
    rfl

/-- Witness of C8: the "Overlap previous" case of `track_test.go`:
`clip(A, 3, 3)` at 3, then `clip(B, 5, 2)` at 2, give `[0, 0, 25, 26, 14, 15]`. -/
theorem track_mixing_witness :
    extent [(3, asset1.Clip 3 3), (2, asset2.Clip 5 2)] = 6 ∧
    ((build 44100 1 [(3, asset1.Clip 3 3), (2, asset2.Clip 5 2)]).chunks 2).1.flatten.length
      = extent [(3, asset1.Clip 3 3), (2, asset2.Clip 5 2)] ∧
    collect [(3, asset1.Clip 3 3), (2, asset2.Clip 5 2)] 2 = [0, 0, 25, 26, 14, 15] :=
  ⟨by decide,
    (track_mixing 44100 1 [(3, asset1.Clip 3 3), (2, asset2.Clip 5 2)] (by decide) 2
      (by decide)).2.1,
    by decide⟩

/-- The ten cases of `TestTrack` in `track_test.go`, run with buffer size 2 as
the test does. -/
theorem track_test_cases :
    collect [(3, asset1.Clip 3 1), (4, asset2.Clip 5 3)] 2 = [0, 0, 0, 13, 25, 26, 27] ∧
    collect [(2, asset1.Clip 3 1), (3, asset2.Clip 5 3)] 2 = [0, 0, 13, 25, 26, 27] ∧
    collect [(2, asset1.Clip 3 1), (4, asset2.Clip 5 3)] 2 = [0, 0, 13, 0, 25, 26, 27] ∧
    collect [(3, asset1.Clip 3 3), (2, asset2.Clip 5 2)] 2 = [0, 0, 25, 26, 14, 15] ∧
    collect [(2, asset1.Clip 3 3), (4, asset2.Clip 5 2)] 2 = [0, 0, 13, 14, 25, 26] ∧
    collect [(2, asset1.Clip 3 5), (4, asset2.Clip 5 2)] 2 = [0, 0, 13, 14, 25, 26, 17] ∧
    collect [(2, asset1.Clip 3 2), (5, asset1.Clip 3 2), (4, asset2.Clip 5 2)] 2
      = [0, 0, 13, 14, 25, 26, 14] ∧
    collect [(2, asset1.Clip 3 2), (5, asset1.Clip 5 2), (3, asset2.Clip 3 2)] 2
      = [0, 0, 13, 23, 24, 15, 16] ∧
    collect [(2, asset1.Clip 3 2), (2, asset2.Clip 3 5)] 2 = [0, 0, 23, 24, 25, 26, 27] ∧
    collect [(2, asset1.Clip 3 2), (5, asset1.Clip 5 2), (1, asset2.Clip 1 8)] 2
      = [0, 21, 22, 23, 24, 25, 26, 27, 28] := by
  decide

end Audio
